import Mathlib

/-!
Shallow embedding of the LRCGen repository (a TypeScript web app that
generates and edits LRC lyric files) and proofs about its claims.

Conventions of the embedding:
* JS strings are modelled as `String` / `List Char`; byte buffers as
  `List Nat` with every element < 256 where it matters.
* JS numbers holding LRC timestamps are modelled as `ℚ` (the parsed
  values are exact decimal fractions); `Number.prototype.toFixed(2)` is
  modelled as exact half-up rounding to centiseconds.
* Fallible JS code (thrown exceptions) is modelled by `Option`/`Except`
  or by explicit early returns that keep the state accumulated so far,
  mirroring where the real `try`/`catch` blocks sit.
* Loops are modelled by structural recursion on an explicit fuel
  argument that provably dominates the number of iterations.
-/

namespace LRCGen

/-! ## Character and list utilities shared by several components -/

/-- Whitespace as trimmed by `String.prototype.trim` (restricted to the
ASCII whitespace characters that can actually occur here). -/
def isWs (c : Char) : Bool := c = ' ' || c = '\t' || c = '\n' || c = '\r'

/-- `trim()` on a list of characters: drop whitespace from both ends. -/
def trimCh (l : List Char) : List Char :=
  ((l.dropWhile isWs).reverse.dropWhile isWs).reverse

/-- `split('\n')` on a list of characters. -/
def splitNl : List Char → List (List Char)
  | [] => [[]]
  | c :: r =>
    if c = '\n' then [] :: splitNl r
    else
      match splitNl r with
      | [] => [[c]]
      | h :: t => (c :: h) :: t

/-- `join('\n')`: the inverse of `splitNl` on newline-free pieces. -/
def joinNl : List (List Char) → List Char
  | [] => []
  | [l] => l
  | l :: r => l ++ '\n' :: joinNl r

/-- The decimal digit character for `n < 10`. -/
def digitChar (n : Nat) : Char := Char.ofNat (48 + n)

/-- Numeric value of a digit character. -/
def digitVal (c : Char) : Nat := c.toNat - 48

/-- Decimal rendering of a natural number (`Number.prototype.toString`),
fuel-structured so that it evaluates by `decide`. The fuel `n` dominates
the number of divisions by 10. -/
def natCharsAux : Nat → Nat → List Char → List Char
  | 0, n, acc => digitChar n :: acc
  | fuel + 1, n, acc =>
    if n < 10 then digitChar n :: acc
    else natCharsAux fuel (n / 10) (digitChar (n % 10) :: acc)

def natChars (n : Nat) : List Char := natCharsAux n n []

/-- `padStart(2, '0')` on a (nonempty) digit string. -/
def padTo2 (l : List Char) : List Char := if l.length < 2 then '0' :: l else l

/-- The two-digit rendering used for frame minutes/seconds below 100. -/
def pad2 (n : Nat) : List Char := padTo2 (natChars n)

/-- `String.prototype.includes` on character lists (non-overlapping scan,
matching the JS semantics: true iff the needle occurs anywhere). -/
def strContainsCh : List Char → List Char → Bool
  | [], needle => needle.isEmpty
  | c :: t, needle => needle.isPrefixOf (c :: t) || strContainsCh t needle

/-- `String.prototype.split(sep)` for a nonempty separator, scanning left
to right; `fuel` dominates the number of characters consumed. -/
def splitGo (sep : List Char) : Nat → List Char → List Char → List (List Char)
  | 0, l, acc => [acc.reverse ++ l]
  | fuel + 1, l, acc =>
    if sep ≠ [] ∧ sep.isPrefixOf l then
      acc.reverse :: splitGo sep fuel (l.drop sep.length) []
    else
      match l with
      | [] => [acc.reverse]
      | c :: r => splitGo sep fuel r (c :: acc)

def splitOnSep (l sep : List Char) : List (List Char) :=
  splitGo sep (l.length + 1) l []

/-- `Array.prototype.join(sep)`. -/
def joinSep (sep : List Char) : List (List Char) → List Char
  | [] => []
  | [l] => l
  | l :: r => l ++ sep ++ joinSep sep r

/-- Lowercasing as `String.prototype.toLowerCase` acts on the ASCII
range (the only range the matching logic here depends on). -/
def lowerCh (l : List Char) : List Char := l.map Char.toLower

/-! ## LRC codec (`parseLrc` / `stringifyLrc`, FileUploader.tsx) -/

/-- One parsed lyric event: `{ seconds, text }` (the `id` field of
the source is presentational and carries no information; it is omitted). -/
structure LrcLine where
  seconds : ℚ
  text : List Char
deriving DecidableEq, Repr

/-- Fractional value of a 2- or 3-digit fraction reading. -/
def fracVal (fr : List Char) : ℚ :=
  ((fr.foldl (fun a c => 10 * a + digitVal c) 0 : Nat) : ℚ) / (10 : ℚ) ^ fr.length

/-- The line matcher `^\[(\d{2}):(\d{2}\.\d{2,3})\](.*)`: two-digit
minutes, two-digit seconds, a greedy 2-or-3-digit fraction, a closing
bracket, then arbitrary trailing text.  On success it returns
`{ seconds := minutes*60 + parseFloat("ss.fff"), text := trailing.trim() }`. -/
def parseLine (l : List Char) : Option LrcLine :=
  match l with
  | c0 :: c1 :: c2 :: c3 :: c4 :: c5 :: c6 :: rest =>
    if c0 = '[' ∧ c1.isDigit ∧ c2.isDigit ∧ c3 = ':' ∧ c4.isDigit ∧ c5.isDigit ∧ c6 = '.' then
      match rest with
      | f1 :: f2 :: rest2 =>
        if f1.isDigit ∧ f2.isDigit then
          match rest2 with
          | [] => none
          | f3 :: rest3 =>
            if f3.isDigit then
              -- greedy: three fraction digits must be followed by `]`
              match rest3 with
              | [] => none
              | g :: text =>
                if g = ']' then
                  some ⟨((10 * digitVal c1 + digitVal c2 : Nat) : ℚ) * 60 +
                        ((10 * digitVal c4 + digitVal c5 : Nat) : ℚ) +
                        ((100 * digitVal f1 + 10 * digitVal f2 + digitVal f3 : Nat) : ℚ) / 1000,
                        trimCh text⟩
                else none
            else if f3 = ']' then
              some ⟨((10 * digitVal c1 + digitVal c2 : Nat) : ℚ) * 60 +
                    ((10 * digitVal c4 + digitVal c5 : Nat) : ℚ) +
                    ((10 * digitVal f1 + digitVal f2 : Nat) : ℚ) / 100,
                    trimCh rest3⟩
            else none
        else none
      | _ => none
    else none
  | _ => none

/-- The comparator of `result.sort((a, b) => a.seconds - b.seconds)`. -/
def lrcLE (a b : LrcLine) : Bool := a.seconds ≤ b.seconds

/-- The per-line pass of `parseLrc`, before sorting. -/
def parseLrcRawCh (doc : List Char) : List LrcLine :=
  (splitNl doc).filterMap parseLine

/-- `parseLrc`: match each line, then stable-sort ascending by timestamp
(JS `Array.prototype.sort` is stable, as is `List.mergeSort`). -/
def parseLrcCh (doc : List Char) : List LrcLine :=
  (parseLrcRawCh doc).mergeSort lrcLE

def parseLrc (s : String) : List LrcLine := parseLrcCh s.data

/-- `toFixed(2)` of the seconds-in-minute part, then `padStart(5, '0')`:
round `seconds % 60` half-up to centiseconds and print `SS.cc`.  For a
nonnegative input the remainder is in `[0, 60)`, so the whole part has at
most two digits and `padStart(5)` coincides with two-digit padding. -/
def round2 (q : ℚ) : ℤ := ⌊q * 100 + 1 / 2⌋

def fmtSeconds (q : ℚ) : List Char :=
  let cs : Nat := (round2 (q - 60 * ⌊q / 60⌋)).toNat
  pad2 (cs / 100) ++ '.' :: pad2 (cs % 100)

/-- One serialized body line `[MM:SS.cc] text` of `stringifyLrc`
(`Math.floor(seconds / 60)` zero-padded to at least two digits). -/
def fmtLine (e : LrcLine) : List Char :=
  '[' :: (padTo2 (natChars (⌊e.seconds / 60⌋).toNat) ++
    ':' :: fmtSeconds e.seconds ++ ']' :: ' ' :: e.text)

/-- The body of `stringifyLrc`: lines joined by a single newline. -/
def stringifyLines (ls : List LrcLine) : List Char := joinNl (ls.map fmtLine)

/-- Full `stringifyLrc` with its optional metadata header: emit
`[ti:...]`/`[ar:...]` lines only for truthy (nonempty) fields. -/
def stringifyLrcCh (ls : List LrcLine) (md : Option (Option (List Char) × Option (List Char))) :
    List Char :=
  (match md with
   | none => []
   | some (t, a) =>
     (match t with
      | some t' => if t' ≠ [] then '[' :: 't' :: 'i' :: ':' :: t' ++ [']', '\n'] else []
      | none => []) ++
     (match a with
      | some a' => if a' ≠ [] then '[' :: 'a' :: 'r' :: ':' :: a' ++ [']', '\n'] else []
      | none => [])) ++ stringifyLines ls

/-- Timestamp at two-decimal precision paired with the text: the
comparison the round-trip law is stated at. -/
def toC2 (e : LrcLine) : ℤ × List Char := (round2 e.seconds, e.text)

/-! ## WAV encoder (`bufferToWav`, audioProcessing.ts) -/

/-- `Math.max(-1, Math.min(1, x))`. -/
def clamp (x : ℚ) : ℚ := max (-1) (min 1 x)

/-- Truncation toward zero, the effect of `| 0` on an in-range value. -/
def truncQ (q : ℚ) : ℤ := if q < 0 then -⌊-q⌋ else ⌊q⌋

/-- `sample = (0.5 + sample < 0 ? sample * 32768 : sample * 32767) | 0`
applied to the clamped sample. -/
def convSample (x : ℚ) : ℤ :=
  let c := clamp x
  if 1 / 2 + c < 0 then truncQ (c * 32768) else truncQ (c * 32767)

/-- `view.setInt16(_, v, true)`: the two bytes of `v` as little-endian
two's complement. -/
def int16le (v : ℤ) : List Nat :=
  let u := (v % 65536).toNat
  [u % 256, u / 256]

/-- `view.setUint32(_, v, true)` (little-endian). -/
def u32le (n : Nat) : List Nat :=
  [n % 256, n / 256 % 256, n / 65536 % 256, n / 16777216 % 256]

/-- `view.setUint16(_, v, true)` (little-endian). -/
def u16le (n : Nat) : List Nat := [n % 256, n / 256 % 256]

/-- The 44-byte canonical WAV header that `bufferToWav` writes with its
`setUint32`/`setUint16` helpers, for `numOfChan` channels of `len`
samples at `sampleRate`. -/
def wavHeader (numOfChan len sampleRate : Nat) : List Nat :=
  let length := len * numOfChan * 2 + 44
  u32le 0x46464952 ++ u32le (length - 8) ++ u32le 0x45564157 ++
  u32le 0x20746d66 ++ u32le 16 ++ u16le 1 ++ u16le numOfChan ++
  u32le sampleRate ++ u32le (sampleRate * 2 * numOfChan) ++
  u16le (numOfChan * 2) ++ u16le 16 ++
  u32le 0x61746164 ++ u32le (length - 44)

/-- The interleaved 16-bit sample data: for each position, one converted
sample per channel.  Out-of-range channel access in JS yields `undefined`,
which the clamp/scale/`|0` chain maps to the same `0` that `getD 0`
produces here. -/
def wavData (channels : List (List ℚ)) (len : Nat) : List Nat :=
  (List.range len).flatMap fun pos =>
    channels.flatMap fun ch => int16le (convSample (ch.getD pos 0))

/-- `bufferToWav` as a byte list (header, then interleaved data). -/
def bufferToWav (channels : List (List ℚ)) (len sampleRate : Nat) : List Nat :=
  wavHeader channels.length len sampleRate ++ wavData channels len

/-! ## Binary tag reader (`getTrackMetadata`, fileUtils.ts)

Byte buffers are `List Nat` (each entry a byte).  The reader's outer
`try`/`catch` is modelled by the explicit early returns below: a byte
access the real code would throw on returns the accumulator gathered so
far, exactly as the catch block leaves `id3Title`/`id3Artist` standing. -/

/-- Replacement character emitted by `TextDecoder` on malformed input. -/
def replChar : Char := Char.ofNat 0xFFFD

/-- Is a byte a UTF-8 continuation byte? -/
def isCont (b : Nat) : Bool := 0x80 ≤ b ∧ b ≤ 0xBF

/-- WHATWG-style UTF-8 decoding with U+FFFD replacement (the behaviour
of `new TextDecoder('utf-8')`, which never throws).  Fuel-structured:
every step consumes at least one byte, so fuel = length suffices. -/
def utf8DecodeAux : Nat → List Nat → List Char
  | _, [] => []
  | 0, _ => [replChar]
  | fuel + 1, b :: rest =>
    if b < 0x80 then Char.ofNat b :: utf8DecodeAux fuel rest
    else if 0xC2 ≤ b ∧ b ≤ 0xDF then
      match rest with
      | c :: r2 =>
        if isCont c then Char.ofNat ((b - 0xC0) * 64 + (c - 0x80)) :: utf8DecodeAux fuel r2
        else replChar :: utf8DecodeAux fuel (c :: r2)
      | [] => [replChar]
    else if 0xE0 ≤ b ∧ b ≤ 0xEF then
      match rest with
      | c :: d :: r2 =>
        if isCont c ∧ isCont d then
          let v := (b - 0xE0) * 4096 + (c - 0x80) * 64 + (d - 0x80)
          if 0x800 ≤ v ∧ ¬(0xD800 ≤ v ∧ v ≤ 0xDFFF) then Char.ofNat v :: utf8DecodeAux fuel r2
          else replChar :: utf8DecodeAux fuel r2
        else replChar :: utf8DecodeAux fuel (c :: d :: r2)
      | _ => [replChar]
    else if 0xF0 ≤ b ∧ b ≤ 0xF4 then
      match rest with
      | c :: d :: e :: r2 =>
        if isCont c ∧ isCont d ∧ isCont e then
          let v := (b - 0xF0) * 262144 + (c - 0x80) * 4096 + (d - 0x80) * 64 + (e - 0x80)
          if 0x10000 ≤ v ∧ v ≤ 0x10FFFF then Char.ofNat v :: utf8DecodeAux fuel r2
          else replChar :: utf8DecodeAux fuel r2
        else replChar :: utf8DecodeAux fuel (c :: d :: e :: r2)
      | _ => [replChar]
    else replChar :: utf8DecodeAux fuel rest

def utf8Decode (bytes : List Nat) : List Char := utf8DecodeAux bytes.length bytes

/-- Group bytes into little-endian 16-bit code units; a dangling odd
byte decodes to a replacement character. -/
def utf16Units : List Nat → List Nat
  | lo :: hi :: r => (lo + 256 * hi) :: utf16Units r
  | [_] => [0xFFFD]
  | [] => []

/-- Combine UTF-16 code units, pairing surrogates (lone surrogates
become U+FFFD, as `TextDecoder` does).  Fuel-structured as above. -/
def utf16CharsAux : Nat → List Nat → List Char
  | _, [] => []
  | 0, _ => [replChar]
  | fuel + 1, u :: r =>
    if 0xD800 ≤ u ∧ u ≤ 0xDBFF then
      match r with
      | v :: r2 =>
        if 0xDC00 ≤ v ∧ v ≤ 0xDFFF then
          Char.ofNat (0x10000 + (u - 0xD800) * 1024 + (v - 0xDC00)) :: utf16CharsAux fuel r2
        else replChar :: utf16CharsAux fuel (v :: r2)
      | [] => [replChar]
    else if 0xDC00 ≤ u ∧ u ≤ 0xDFFF then replChar :: utf16CharsAux fuel r
    else Char.ofNat u :: utf16CharsAux fuel r

def utf16Chars (us : List Nat) : List Char := utf16CharsAux us.length us

/-- `new TextDecoder('utf-16')`: little-endian, consuming a leading
`FF FE` byte-order mark. -/
def utf16Decode (bytes : List Nat) : List Char :=
  match utf16Units bytes with
  | 0xFEFF :: r => utf16Chars r
  | us => utf16Chars us

/-- Frame-text decoding: pick the decoder from the encoding indicator
byte (`1`/`2` → UTF-16, otherwise UTF-8), strip NUL characters, trim.
The source's inner `catch` fallback is dead code (`TextDecoder.decode`
without `fatal` never throws) and is not modelled. -/
def decodeFrameText (enc : Nat) (bytes : List Nat) : List Char :=
  let s := if enc = 1 ∨ enc = 2 then utf16Decode bytes else utf8Decode bytes
  trimCh (s.filter fun c => c ≠ Char.ofNat 0)

/-- Big-endian 32-bit read at `i` (in-range by the walk's bounds checks). -/
def be32 (b : List Nat) (i : Nat) : Nat :=
  b.getD i 0 * 16777216 + b.getD (i + 1) 0 * 65536 + b.getD (i + 2) 0 * 256 + b.getD (i + 3) 0

/-- Synchsafe 32-bit read at `i` (7 data bits per byte, MSB first). -/
def synchsafe32 (b : List Nat) (i : Nat) : Nat :=
  b.getD i 0 % 128 * 2097152 + b.getD (i + 1) 0 % 128 * 16384 +
  b.getD (i + 2) 0 % 128 * 128 + b.getD (i + 3) 0 % 128

/-- The frame identifier, as `String.fromCharCode` builds it. -/
def frameIdOf (b : List Nat) (offset : Nat) : String :=
  String.mk [Char.ofNat (b.getD offset 0), Char.ofNat (b.getD (offset + 1) 0),
    Char.ofNat (b.getD (offset + 2) 0), Char.ofNat (b.getD (offset + 3) 0)]

/-- Accumulator update for one decoded `TIT2`/`TPE1` text: the source
overwrites the field whenever the newly decoded text is nonempty. -/
def tagStep (frameId : String) (text : String) (acc : Option String × Option String) :
    Option String × Option String :=
  ( if frameId = "TIT2" ∧ text ≠ "" then some text else acc.1,
    if frameId = "TPE1" ∧ text ≠ "" then some text else acc.2 )

/-- The frame walk of `getTrackMetadata` (the `while (offset < limit)`
loop).  Besides the final `(title?, artist?)` pair it returns the trace
of decoded `(frameId, text)` pairs, used to state which frame "won".
A `TIT2`/`TPE1` frame with `frameSize = 0` makes the real code construct
`new Uint8Array(buffer, offset + 1, -1)`, which throws out of the loop:
modelled by returning the accumulator unchanged.  Each iteration advances
`offset` by at least 10, so `fuel = limit + 1` dominates the loop: the
exported `id3Walk` below never hits the fuel-exhaustion branch. -/
def walkFrames (b : List Nat) (version size limit : Nat) :
    Nat → Nat → Option String × Option String →
    (Option String × Option String) × List (String × String)
  | 0, _, acc => (acc, [])
  | fuel + 1, offset, acc =>
    if offset < limit then
      if offset + 10 > limit then (acc, [])
      else if b.getD offset 0 = 0 then (acc, [])
      else
        let frameId := frameIdOf b offset
        let rawSize := be32 b (offset + 4)
        let frameSize := if version = 4 ∧ rawSize > size then synchsafe32 b (offset + 4) else rawSize
        let off2 := offset + 10
        if off2 + frameSize > limit then (acc, [])
        else if frameId = "TIT2" ∨ frameId = "TPE1" then
          if frameSize = 0 then (acc, [])
          else
            let enc := b.getD off2 0
            let text := String.mk (decodeFrameText enc ((b.drop (off2 + 1)).take (frameSize - 1)))
            let res := walkFrames b version size limit fuel (off2 + frameSize) (tagStep frameId text acc)
            (res.1, (frameId, text) :: res.2)
        else walkFrames b version size limit fuel (off2 + frameSize) acc
    else (acc, [])

/-- The whole tag-reading `try` block: check the 3-byte `ID3` magic,
read the version byte and the synchsafe tag size, then walk the frames.
A buffer shorter than the 10-byte header makes one of the header reads
throw (caught: empty result); a missing magic returns the empty result
without touching anything else. -/
def id3Walk (b : List Nat) : (Option String × Option String) × List (String × String) :=
  if b.get? 0 = some 0x49 ∧ b.get? 1 = some 0x44 ∧ b.get? 2 = some 0x33 then
    if b.length < 10 then ((none, none), [])
    else
      let version := b.getD 3 0
      let size := synchsafe32 b 6
      let limit := min (size + 10) b.length
      walkFrames b version size limit (limit + 1) 10 (none, none)
  else ((none, none), [])

/-- The `(id3Title, id3Artist)` pair the tag-reading block leaves behind. -/
def extractTags (b : List Nat) : Option String × Option String := (id3Walk b).1

/-- The decoded texts of one frame id, in frame-walk order. -/
def tagTexts (fid : String) (tr : List (String × String)) : List String :=
  (tr.filter fun p => p.1 == fid).map Prod.snd

/-- Keep the last nonempty string, starting from a prior value: the
fold the walk's overwrite-if-nonempty assignments perform. -/
def lastKeep (a : Option String) (ts : List String) : Option String :=
  ts.foldl (fun x t => if t ≠ "" then some t else x) a

/-! ## Filename heuristic parser and metadata resolver (fileUtils.ts) -/

/-- Result of metadata resolution: `{ title?, artist? }`. -/
structure TrackMeta where
  title : Option String
  artist : Option String
deriving DecidableEq, Repr

/-- `filename.replace(/\.[^/.]+$/, "")`: strip a final extension (a dot
followed by one or more characters none of which is `/` or `.`). -/
def stripExtCh (l : List Char) : List Char :=
  let ext := l.reverse.takeWhile fun c => c ≠ '.'
  if ext.length < l.length ∧ ext ≠ [] ∧ '/' ∉ ext then
    l.take (l.length - ext.length - 1)
  else l

def stripExt (s : String) : String := String.mk (stripExtCh s.data)

/-- `parseMetadataFromFilename`: strip the extension; if the remainder
contains `" - "`, the first split segment (trimmed) is the artist and the
rest re-joined with `" - "` (trimmed) is the title; otherwise the whole
remainder is the title. -/
def parseMetadataFromFilename (filename : String) : TrackMeta :=
  let name := stripExtCh filename.data
  let sep : List Char := [' ', '-', ' ']
  if strContainsCh name sep then
    let parts := splitOnSep name sep
    if parts.length ≥ 2 then
      { artist := some (String.mk (trimCh (parts.headI))),
        title := some (String.mk (trimCh (joinSep sep parts.tail))) }
    else { title := some (String.mk name), artist := none }
  else { title := some (String.mk name), artist := none }

/-- JS `trim()` on a `String`, via the character-level model. -/
def strTrim (s : String) : String := String.mk (trimCh s.data)

/-- JS truthiness plus the `trim().length > 0` check guarding the
tag-derived fields. -/
def tagUsable : Option String → Bool
  | none => false
  | some t => t ≠ "" ∧ strTrim t ≠ ""

/-- The priority merge at the end of `getTrackMetadata`. -/
def resolveMeta (id3Title id3Artist : Option String) (filename : String) : TrackMeta :=
  let fm := parseMetadataFromFilename filename
  { title := if tagUsable id3Title then id3Title else fm.title,
    artist :=
      if tagUsable id3Artist then id3Artist
      else some (match fm.artist with
        | some a => if a = "" then "Unknown" else a
        | none => "Unknown") }

/-- `getTrackMetadata` over the leading bytes of the file plus its name. -/
def getTrackMetadata (b : List Nat) (filename : String) : TrackMeta :=
  let tags := extractTags b
  resolveMeta tags.1 tags.2 filename

/-! ## Transcription retry loop (`generateLrcFromAudio`, geminiService.ts) -/

/-- A thrown service error: a possible `status`, a possible
`response.status`, and a message. -/
structure GenError where
  status : Option Nat
  responseStatus : Option Nat
  message : String
deriving DecidableEq, Repr

/-- `error.status || error.response?.status` (`0` is falsy). -/
def effStatus (e : GenError) : Option Nat :=
  match e.status with
  | some s => if s ≠ 0 then some s else e.responseStatus
  | none => e.responseStatus

/-- The terminal client-error classification. -/
def isTerminal (e : GenError) : Bool :=
  effStatus e = some 400 ∨ effStatus e = some 401 ∨
  effStatus e = some 403 ∨ effStatus e = some 404

def MAX_RETRIES : Nat := 3

def BASE_DELAY : ℚ := 2000

/-- One backoff delay: `BASE_DELAY * Math.pow(2, attempt) + Math.random() * 1000`. -/
def backoffDelay (jitter : Nat → ℚ) (attempt : Nat) : ℚ :=
  BASE_DELAY * 2 ^ attempt + jitter attempt

/-- The retry loop.  `results attempt` abstracts the whole `try` body of
attempt number `attempt` (API call, empty-text check, fence cleanup) as
either a final string or the caught error.  Returns the outcome, how many
attempts ran, and the backoff delays that were awaited.  `remaining` is
`MAX_RETRIES - attempt`: the loop breaks (and rethrows the last error)
when it hits zero or when the error is terminal. -/
def genLoop (results : Nat → Except GenError String) (jitter : Nat → ℚ) :
    Nat → Nat → Except GenError String × Nat × List ℚ
  | attempt, remaining =>
    match results attempt with
    | .ok s => (.ok s, 1, [])
    | .error e =>
      match remaining with
      | 0 => (.error e, 1, [])
      | r + 1 =>
        if isTerminal e then (.error e, 1, [])
        else
          let rest := genLoop results jitter (attempt + 1) r
          (rest.1, rest.2.1 + 1, backoffDelay jitter attempt :: rest.2.2)

/-- `generateLrcFromAudio`: missing (falsy) API key throws before any
attempt; otherwise run the retry loop from attempt 0. -/
def generateLrcFromAudio (apiKey : Option String) (results : Nat → Except GenError String)
    (jitter : Nat → ℚ) : Except GenError String × Nat × List ℚ :=
  match apiKey with
  | none => (.error ⟨none, none, "API Key is missing"⟩, 0, [])
  | some k =>
    if k = "" then (.error ⟨none, none, "API Key is missing"⟩, 0, [])
    else genLoop results jitter 0 MAX_RETRIES

/-! ## Track orchestrator (`processTrack` / `handleGenerateAll`, App.tsx) -/

inductive TrackStatus where
  | PENDING | ISOLATING | GENERATING | COMPLETED | ERROR
deriving DecidableEq, Repr

/-- The orchestrator-relevant fields of a `Track`. -/
structure Track where
  id : String
  status : TrackStatus
  lrcContent : Option String
  error : Option String
  useIsolation : Bool
deriving DecidableEq, Repr

/-- The filter of `handleGenerateAll`:
`t.status !== 'COMPLETED' && (!t.lrcContent || t.lrcContent.trim().length === 0)`. -/
def keepTrack (t : Track) : Bool :=
  t.status != TrackStatus.COMPLETED &&
    (match t.lrcContent with
     | none => true
     | some c => c == "" || strTrim c == "")

/-- The functional state updates `processTrack` issues via `setTracks`,
each of which rewrites only the track with the matching id. -/
def updStart (useIso : Bool) (t : Track) : Track :=
  { t with status := if useIso then TrackStatus.ISOLATING else TrackStatus.GENERATING,
           error := none }

def updGenerating (t : Track) : Track := { t with status := TrackStatus.GENERATING }

/-- The catch branch: `error.message || "Generation Failed"`. -/
def updError (msg : String) (t : Track) : Track :=
  { t with status := TrackStatus.ERROR,
           error := some (if msg = "" then "Generation Failed" else msg) }

def updComplete (lrc : String) (t : Track) : Track :=
  { t with status := TrackStatus.COMPLETED, lrcContent := some lrc, error := none }

/-- How one track's pipeline run ends: the isolation step throws, the
generation step throws, or generation returns LRC text. -/
inductive Outcome where
  | isoFail (msg : String)
  | genFail (msg : String)
  | ok (lrc : String)
deriving DecidableEq, Repr

/-- The ordered sequence of `(id, update)` state events one
`processTrack(track)` call emits, given how its steps end. -/
def processTrackEvents (t : Track) (o : Outcome) : List (String × (Track → Track)) :=
  (t.id, updStart t.useIsolation) ::
  (match o with
   | .isoFail m => [(t.id, updError m)]
   | .genFail m =>
     (if t.useIsolation then [(t.id, updGenerating)] else []) ++ [(t.id, updError m)]
   | .ok l =>
     (if t.useIsolation then [(t.id, updGenerating)] else []) ++ [(t.id, updComplete l)])

/-- One `setTracks(prev => prev.map(t => t.id === id ? f(t) : t))`. -/
def applyUpdate (tracks : List Track) (e : String × (Track → Track)) : List Track :=
  tracks.map fun t => if t.id = e.1 then e.2 t else t

/-- A whole batch run: some interleaving `E` of the per-track event
sequences, applied to the shared track list in order. -/
def runBatch (tracks : List Track) (E : List (String × (Track → Track))) : List Track :=
  E.foldl applyUpdate tracks

/-- Replay only the events addressed to the track one holds. -/
def homApply (t : Track) (E : List (String × (Track → Track))) : Track :=
  E.foldl (fun u e => if u.id = e.1 then e.2 u else u) t

/-- Apply a sequence of updates unconditionally. -/
def applySeq (t : Track) (es : List (String × (Track → Track))) : Track :=
  es.foldl (fun u e => e.2 u) t

/-- The final state `processTrack` leaves a track in, by outcome. -/
def finalTrack (t : Track) (o : Outcome) : Track :=
  match o with
  | .isoFail m => { t with status := TrackStatus.ERROR,
                           error := some (if m = "" then "Generation Failed" else m) }
  | .genFail m => { t with status := TrackStatus.ERROR,
                           error := some (if m = "" then "Generation Failed" else m) }
  | .ok l => { t with status := TrackStatus.COMPLETED, lrcContent := some l, error := none }

/-! ## Bulk LRC matching (`handleBulkLrcUpload`, ConfigurationStep.tsx) -/

/-- First match of `/\[XY:(.*?)\]/i` for a two-letter tag `XY`: scan for
a case-insensitive `[XY:` and capture lazily up to the next `]`.  `.`
does not match a newline, so a capture may not span one. -/
def tagCapture (c1 c2 : Char) : List Char → Option (List Char)
  | [] => none
  | b :: rest =>
    match rest with
    | t1 :: t2 :: col :: r =>
      if b = '[' ∧ t1.toLower = c1 ∧ t2.toLower = c2 ∧ col = ':' then
        match captureTo r with
        | some cap => some cap
        | none => tagCapture c1 c2 rest
      else tagCapture c1 c2 rest
    | _ => none
where
  /-- Characters up to the first `]`, failing on a newline or the end. -/
  captureTo : List Char → Option (List Char)
    | [] => none
    | c :: r =>
      if c = ']' then some []
      else if c = '\n' then none
      else (captureTo r).map (c :: ·)

/-- `content.match(/\[ti:(.*?)\]/i)` followed by `trim().toLowerCase()`. -/
def lrcTag (c1 c2 : Char) (content : String) : Option String :=
  (tagCapture c1 c2 content.data).map fun cap => String.mk (lowerCh (trimCh cap))

/-- A track's filename stem as the matcher lowercases and trims it. -/
def stemOf (name : String) : String :=
  String.mk (trimCh (lowerCh (stripExtCh name.data)))

/-- The per-track predicate of the `tracks.find(...)` call: exact stem
equality, OR title-tag (length > 3) substring, OR artist-tag (length > 3)
stem-start — evaluated per track in this order, short-circuiting. -/
def bulkMatches (lrcName : String) (lrcTitle lrcArtist : Option String)
    (trackFileName : String) : Bool :=
  let trackName := stemOf trackFileName
  trackName = lrcName ||
  (match lrcTitle with
   | some ti => ti.length > 3 && strContainsCh trackName.data ti.data
   | none => false) ||
  (match lrcArtist with
   | some ar => ar.length > 3 && ar.data.isPrefixOf trackName.data
   | none => false)

/-- `Array.prototype.find`: the first track (in list order) whose
predicate holds, for one uploaded LRC file. -/
def matchLrcFile (trackNames : List String) (fileName : String) (content : String) :
    Option String :=
  trackNames.find? (bulkMatches (stemOf fileName) (lrcTag 't' 'i' content)
    (lrcTag 'a' 'r' content))

/-- The bulk upload pass: each file is matched independently; matched
files produce updates, unmatched files are dropped.  Returns the updates
(track name, content) and the matched count the alert reports. -/
def handleBulkLrcUpload (trackNames : List String) (files : List (String × String)) :
    List (String × String) × Nat :=
  let updates := files.filterMap fun f =>
    (matchLrcFile trackNames f.1 f.2).map fun tr => (tr, f.2)
  (updates, updates.length)

/-! ## Concrete inputs used by counterexamples and witnesses -/

/-- A document whose single line matches the timestamp pattern but whose
timestamp (99 minutes, 99.99 seconds = 6039.99 s) serializes with a
three-digit minutes field. -/
def overflowDoc : List Char := "[99:99.99] x".data

/-- A small well-formed document for the round-trip witness. -/
def rtDoc : List Char := "[00:05.00] line two\n[00:12.50] line one".data

/-- An ID3v2.3 buffer carrying two nonempty UTF-8 `TIT2` frames, value
`"A"` then value `"B"` (header, then two 12-byte frames). -/
def twoTitleBuf : List Nat :=
  [0x49, 0x44, 0x33, 3, 0, 0, 0, 0, 0, 24,
   84, 73, 84, 50, 0, 0, 0, 2, 0, 0, 3, 65,
   84, 73, 84, 50, 0, 0, 0, 2, 0, 0, 3, 66]

/-- Two batch tracks: one already completed (skipped), one pending. -/
def doneTrack : Track :=
  { id := "a", status := TrackStatus.COMPLETED, lrcContent := some "[00:01.00] x",
    error := none, useIsolation := false }

def pendingTrack : Track :=
  { id := "b", status := TrackStatus.PENDING, lrcContent := none,
    error := none, useIsolation := true }

/-- A serial interleaving of the batch events: the pending track fails
in its generation step. -/
def demoEvents : List (String × (Track → Track)) :=
  processTrackEvents pendingTrack (Outcome.genFail "boom")

/-- Outcome assignment for the demo batch. -/
def demoOutcome : String → Outcome := fun _ => Outcome.genFail "boom"

/-- Track list for the bulk-matching counterexample: the first track can
only match by artist-tag, the second is an exact stem match. -/
def demoTrackNames : List String := ["Artists Best.mp3", "song.mp3"]

def demoLrcContent : String := "[ar:artists]"

/-! # Theorems

General lemmas about the string utilities, then the claims C1–C10. -/

theorem splitNl_ne_nil : ∀ l : List Char, splitNl l ≠ []
  | [] => by simp [splitNl]
  | c :: r => by
    simp only [splitNl]
    split
    · simp
    · cases h : splitNl r <;> simp

theorem mem_splitNl_no_nl : ∀ (l p : List Char), p ∈ splitNl l → '\n' ∉ p
  | [], p, hp => by
    simp [splitNl] at hp
    simp [hp]
  | c :: r, p, hp => by
    simp only [splitNl] at hp
    by_cases hc : c = '\n'
    · rw [if_pos hc] at hp
      rcases List.mem_cons.mp hp with h | h
      · simp [h]
      · exact mem_splitNl_no_nl r p h
    · rw [if_neg hc] at hp
      cases hs : splitNl r with
      | nil => exact absurd hs (splitNl_ne_nil r)
      | cons h0 t =>
        rw [hs] at hp
        have hh0 : '\n' ∉ h0 := mem_splitNl_no_nl r h0 (by rw [hs]; exact List.mem_cons_self h0 t)
        rcases List.mem_cons.mp hp with h | h
        · subst h
          intro hmem
          rcases List.mem_cons.mp hmem with h1 | h1
          · exact hc h1.symm
          · exact hh0 h1
        · exact mem_splitNl_no_nl r p (by rw [hs]; exact List.mem_cons_of_mem h0 h)

theorem splitNl_of_no_nl : ∀ l : List Char, '\n' ∉ l → splitNl l = [l]
  | [], _ => rfl
  | c :: r, h => by
    have hc : ¬c = '\n' := fun e => h (e ▸ List.mem_cons_self c r)
    have hr := splitNl_of_no_nl r fun m => h (List.mem_cons_of_mem c m)
    simp only [splitNl, if_neg hc, hr]

theorem splitNl_append_cons : ∀ (l r : List Char), '\n' ∉ l →
    splitNl (l ++ '\n' :: r) = l :: splitNl r
  | [], r, _ => by simp [splitNl]
  | c :: t, r, h => by
    have hc : ¬c = '\n' := fun e => h (e ▸ List.mem_cons_self c t)
    have ih := splitNl_append_cons t r fun m => h (List.mem_cons_of_mem c m)
    simp only [List.cons_append, splitNl, if_neg hc]
    rw [List.append_eq, ih]

theorem splitNl_joinNl : ∀ parts : List (List Char), parts ≠ [] →
    (∀ p ∈ parts, '\n' ∉ p) → splitNl (joinNl parts) = parts
  | [], h, _ => absurd rfl h
  | [l], _, hp => by
    simp only [joinNl]
    exact splitNl_of_no_nl l (hp l (by simp))
  | l :: l2 :: t, _, hp => by
    have ih := splitNl_joinNl (l2 :: t) (by simp) fun p m => hp p (List.mem_cons_of_mem l m)
    simp only [joinNl]
    rw [splitNl_append_cons l _ (hp l (by simp)), ih]

theorem head?_dropWhileP {α : Type} {p : α → Bool} (l : List α) (a : α)
    (h : (l.dropWhile p).head? = some a) : p a = false := by
  have := List.head?_dropWhile_not p l
  rw [h] at this
  exact this

theorem dropWhile_eq_self_of_head {α : Type} {p : α → Bool} {l : List α}
    (h : ∀ a, l.head? = some a → p a = false) : l.dropWhile p = l := by
  cases l with
  | nil => rfl
  | cons a t =>
    have ha := h a rfl
    simp [List.dropWhile_cons, ha]

theorem dropWhile_idem {α : Type} (p : α → Bool) (l : List α) :
    (l.dropWhile p).dropWhile p = l.dropWhile p :=
  dropWhile_eq_self_of_head fun a ha => head?_dropWhileP l a ha

theorem getLast?_dropWhile {α : Type} (p : α → Bool) (l : List α)
    (h : l.dropWhile p ≠ []) : (l.dropWhile p).getLast? = l.getLast? := by
  obtain ⟨pre, hpre⟩ := List.dropWhile_suffix (l := l) p
  cases hg : (l.dropWhile p).getLast? with
  | none => exact absurd (List.getLast?_eq_none_iff.mp hg) h
  | some a =>
    conv_rhs => rw [← hpre]
    rw [List.getLast?_append, hg]
    rfl

theorem trimCh_subset (l : List Char) : trimCh l ⊆ l := by
  intro a ha
  simp only [trimCh, List.mem_reverse] at ha
  have h1 := List.dropWhile_subset (l := (l.dropWhile isWs).reverse) isWs ha
  rw [List.mem_reverse] at h1
  exact List.dropWhile_subset isWs h1

theorem trimCh_cons_ws (c : Char) (l : List Char) (h : isWs c = true) :
    trimCh (c :: l) = trimCh l := by
  simp [trimCh, List.dropWhile_cons, h]

theorem trimCh_idem (l : List Char) : trimCh (trimCh l) = trimCh l := by
  by_cases hB : (l.dropWhile isWs).reverse.dropWhile isWs = []
  · simp [trimCh, hB]
  · show (((trimCh l).dropWhile isWs).reverse.dropWhile isWs).reverse = trimCh l
    have h1 : (trimCh l).dropWhile isWs = trimCh l := by
      refine dropWhile_eq_self_of_head fun a ha => ?_
      rw [trimCh, List.head?_reverse, getLast?_dropWhile _ _ hB, List.getLast?_reverse] at ha
      exact head?_dropWhileP l a ha
    rw [h1, trimCh, List.reverse_reverse, dropWhile_idem]

theorem no_nl_trimCh {l : List Char} (h : '\n' ∉ l) : '\n' ∉ trimCh l :=
  fun m => h (trimCh_subset l m)

theorem digitChar_spec (d : Nat) (h : d < 10) :
    (digitChar d).isDigit = true ∧ digitVal (digitChar d) = d ∧
    isWs (digitChar d) = false ∧ digitChar d ≠ '\n' ∧ digitChar d ≠ '[' ∧
    digitChar d ≠ ':' ∧ digitChar d ≠ '.' ∧ digitChar d ≠ ']' := by
  interval_cases d <;> exact ⟨rfl, rfl, rfl, by decide, by decide, by decide, by decide, by decide⟩

theorem natCharsAux_lt10 : ∀ (fuel n : Nat) (acc : List Char), n < 10 →
    natCharsAux fuel n acc = digitChar n :: acc
  | 0, _, _, _ => rfl
  | _ + 1, n, acc, h => by simp [natCharsAux, h]

theorem natChars_lt10 (n : Nat) (h : n < 10) : natChars n = [digitChar n] :=
  natCharsAux_lt10 n n [] h

theorem natChars_two_digits (n : Nat) (h1 : 10 ≤ n) (h2 : n < 100) :
    natChars n = [digitChar (n / 10), digitChar (n % 10)] := by
  obtain ⟨m, rfl⟩ : ∃ m, n = m + 1 := ⟨n - 1, by omega⟩
  show natCharsAux (m + 1) (m + 1) [] = _
  rw [show natCharsAux (m + 1) (m + 1) [] =
      natCharsAux m ((m + 1) / 10) [digitChar ((m + 1) % 10)] by
    simp [natCharsAux, Nat.not_lt.2 h1]]
  rw [natCharsAux_lt10 m ((m + 1) / 10) _ (by omega)]

theorem pad2_eq (n : Nat) (h : n < 100) :
    pad2 n = [digitChar (n / 10), digitChar (n % 10)] := by
  by_cases h1 : n < 10
  · rw [pad2, natChars_lt10 n h1, Nat.div_eq_of_lt h1, Nat.mod_eq_of_lt h1]
    rfl
  · rw [pad2, natChars_two_digits n (by omega) h]
    rfl

/-! ## Lemmas about the LRC line matcher -/

theorem digitVal_le9 (c : Char) (h : c.isDigit = true) : digitVal c ≤ 9 := by
  simp only [Char.isDigit, Bool.and_eq_true, decide_eq_true_eq] at h
  have h2 : c.val.toNat ≤ 57 := UInt32.toNat_le_of_le (by norm_num) h.2
  simp only [digitVal, Char.toNat]
  omega

/-- Decomposed characterization of the line matcher
`^\[(\d{2}):(\d{2}\.\d{2,3})\](.*)`: a line parses iff it has exactly the
two-fraction-digit or three-fraction-digit header shape, and then the
timestamp is minutes times sixty plus the fractional seconds value and
the text is the trimmed remainder. -/
theorem parseLine_shape (l : List Char) (e : LrcLine) :
    parseLine l = some e ↔
      ((∃ c1 c2 c4 c5 f1 f2 text,
          c1.isDigit ∧ c2.isDigit ∧ c4.isDigit ∧ c5.isDigit ∧ f1.isDigit ∧ f2.isDigit ∧
          l = '[' :: c1 :: c2 :: ':' :: c4 :: c5 :: '.' :: f1 :: f2 :: ']' :: text ∧
          e.seconds = ((10 * digitVal c1 + digitVal c2 : Nat) : ℚ) * 60 +
            ((10 * digitVal c4 + digitVal c5 : Nat) : ℚ) +
            ((10 * digitVal f1 + digitVal f2 : Nat) : ℚ) / 100 ∧
          e.text = trimCh text) ∨
       (∃ c1 c2 c4 c5 f1 f2 f3 text,
          c1.isDigit ∧ c2.isDigit ∧ c4.isDigit ∧ c5.isDigit ∧
          f1.isDigit ∧ f2.isDigit ∧ f3.isDigit ∧
          l = '[' :: c1 :: c2 :: ':' :: c4 :: c5 :: '.' :: f1 :: f2 :: f3 :: ']' :: text ∧
          e.seconds = ((10 * digitVal c1 + digitVal c2 : Nat) : ℚ) * 60 +
            ((10 * digitVal c4 + digitVal c5 : Nat) : ℚ) +
            ((100 * digitVal f1 + 10 * digitVal f2 + digitVal f3 : Nat) : ℚ) / 1000 ∧
          e.text = trimCh text)) := by
  constructor
  · intro h
    rcases l with _ | ⟨c0, l⟩; · simp [parseLine] at h
    rcases l with _ | ⟨c1, l⟩; · simp [parseLine] at h
    rcases l with _ | ⟨c2, l⟩; · simp [parseLine] at h
    rcases l with _ | ⟨c3, l⟩; · simp [parseLine] at h
    rcases l with _ | ⟨c4, l⟩; · simp [parseLine] at h
    rcases l with _ | ⟨c5, l⟩; · simp [parseLine] at h
    rcases l with _ | ⟨c6, rest⟩; · simp [parseLine] at h
    simp only [parseLine] at h
    by_cases hc : c0 = '[' ∧ c1.isDigit = true ∧ c2.isDigit = true ∧ c3 = ':' ∧
        c4.isDigit = true ∧ c5.isDigit = true ∧ c6 = '.'
    · rw [if_pos hc] at h
      obtain ⟨h0, h1, h2, h3, h4, h5, h6⟩ := hc
      rcases rest with _ | ⟨f1, rest⟩; · simp at h
      rcases rest with _ | ⟨f2, rest2⟩; · simp at h
      dsimp only at h
      by_cases hf : f1.isDigit = true ∧ f2.isDigit = true
      · rw [if_pos hf] at h
        obtain ⟨hf1, hf2⟩ := hf
        rcases rest2 with _ | ⟨f3, rest3⟩; · simp at h
        dsimp only at h
        by_cases hf3 : f3.isDigit = true
        · rw [if_pos hf3] at h
          rcases rest3 with _ | ⟨g, text⟩; · simp at h
          dsimp only at h
          by_cases hg : g = ']'
          · rw [if_pos hg] at h
            rw [Option.some.injEq] at h
            subst h0 h3 h6 hg
            exact Or.inr ⟨c1, c2, c4, c5, f1, f2, f3, text, h1, h2, h4, h5, hf1, hf2, hf3,
              rfl, by rw [← h], by rw [← h]⟩
          · rw [if_neg hg] at h
            exact absurd h (by simp)
        · rw [if_neg hf3] at h
          by_cases hg : f3 = ']'
          · rw [if_pos hg] at h
            rw [Option.some.injEq] at h
            subst h0 h3 h6 hg
            exact Or.inl ⟨c1, c2, c4, c5, f1, f2, rest3, h1, h2, h4, h5, hf1, hf2,
              rfl, by rw [← h], by rw [← h]⟩
          · rw [if_neg hg] at h
            exact absurd h (by simp)
      · rw [if_neg hf] at h
        exact absurd h (by simp)
    · rw [if_neg hc] at h
      exact absurd h (by simp)
  · intro h
    rcases h with ⟨c1, c2, c4, c5, f1, f2, text, h1, h2, h4, h5, hf1, hf2, hl, hs, htx⟩ |
      ⟨c1, c2, c4, c5, f1, f2, f3, text, h1, h2, h4, h5, hf1, hf2, hf3, hl, hs, htx⟩
    · subst hl
      rcases e with ⟨es, et⟩
      simp only at hs htx
      subst hs htx
      simp [parseLine, h1, h2, h4, h5, hf1, hf2]
    · subst hl
      rcases e with ⟨es, et⟩
      simp only at hs htx
      subst hs htx
      simp [parseLine, h1, h2, h4, h5, hf1, hf2, hf3]

/-- Any entry the line matcher produces from a newline-free line has a
timestamp in `[0, 6040)` and a trimmed, newline-free text. -/
theorem parseLine_good (l : List Char) (e : LrcLine) (h : parseLine l = some e)
    (hnl : '\n' ∉ l) :
    0 ≤ e.seconds ∧ e.seconds < 6040 ∧ trimCh e.text = e.text ∧ '\n' ∉ e.text := by
  rcases (parseLine_shape l e).mp h with
    ⟨c1, c2, c4, c5, f1, f2, text, h1, h2, h4, h5, hf1, hf2, hl, hs, htx⟩ |
    ⟨c1, c2, c4, c5, f1, f2, f3, text, h1, h2, h4, h5, hf1, hf2, hf3, hl, hs, htx⟩
  · have b1 := digitVal_le9 c1 h1
    have b2 := digitVal_le9 c2 h2
    have b4 := digitVal_le9 c4 h4
    have b5 := digitVal_le9 c5 h5
    have bf1 := digitVal_le9 f1 hf1
    have bf2 := digitVal_le9 f2 hf2
    have htext : '\n' ∉ text := fun m => hnl (by rw [hl]; simp [m])
    have hA : ((10 * digitVal c1 + digitVal c2 : Nat) : ℚ) ≤ 99 := by exact_mod_cast by omega
    have hB : ((10 * digitVal c4 + digitVal c5 : Nat) : ℚ) ≤ 99 := by exact_mod_cast by omega
    have hC : ((10 * digitVal f1 + digitVal f2 : Nat) : ℚ) ≤ 99 := by exact_mod_cast by omega
    have hC0 : (0:ℚ) ≤ ((10 * digitVal f1 + digitVal f2 : Nat) : ℚ) := by positivity
    refine ⟨by rw [hs]; positivity, ?_, by rw [htx]; exact trimCh_idem text,
      by rw [htx]; exact no_nl_trimCh htext⟩
    rw [hs]
    have : ((10 * digitVal f1 + digitVal f2 : Nat) : ℚ) / 100 < 1 := by linarith
    linarith
  · have b1 := digitVal_le9 c1 h1
    have b2 := digitVal_le9 c2 h2
    have b4 := digitVal_le9 c4 h4
    have b5 := digitVal_le9 c5 h5
    have bf1 := digitVal_le9 f1 hf1
    have bf2 := digitVal_le9 f2 hf2
    have bf3 := digitVal_le9 f3 hf3
    have htext : '\n' ∉ text := fun m => hnl (by rw [hl]; simp [m])
    have hA : ((10 * digitVal c1 + digitVal c2 : Nat) : ℚ) ≤ 99 := by exact_mod_cast by omega
    have hB : ((10 * digitVal c4 + digitVal c5 : Nat) : ℚ) ≤ 99 := by exact_mod_cast by omega
    have hC : ((100 * digitVal f1 + 10 * digitVal f2 + digitVal f3 : Nat) : ℚ) ≤ 999 := by
      exact_mod_cast by omega
    have hC0 : (0:ℚ) ≤ ((100 * digitVal f1 + 10 * digitVal f2 + digitVal f3 : Nat) : ℚ) := by
      positivity
    refine ⟨by rw [hs]; positivity, ?_, by rw [htx]; exact trimCh_idem text,
      by rw [htx]; exact no_nl_trimCh htext⟩
    rw [hs]
    have : ((100 * digitVal f1 + 10 * digitVal f2 + digitVal f3 : Nat) : ℚ) / 1000 < 1 := by
      linarith
    linarith

/-! ## Lemmas about serialization and two-decimal rounding -/

theorem round2_mono {q r : ℚ} (h : q ≤ r) : round2 q ≤ round2 r :=
  Int.floor_le_floor (by linarith)

theorem round2_intCast_div (k : ℤ) : round2 ((k : ℚ) / 100) = k := by
  unfold round2
  rw [div_mul_cancel₀ _ (by norm_num : (100:ℚ) ≠ 0), Int.floor_int_add k (1/2 : ℚ)]
  norm_num

/-- For an entry with a timestamp in `[0, 6000)`, the serialized body
line consists of a bracketed two-digit minutes field, a two-digit
centisecond-rounded seconds field, a space and the text, spelled out
digit character by digit character. -/
theorem fmtLine_expand (q : ℚ) (tx : List Char) (h0 : 0 ≤ q) (h6 : q < 6000) :
    ∃ mn cs : ℕ, (mn : ℤ) = ⌊q / 60⌋ ∧ (cs : ℤ) = round2 (q - 60 * ⌊q / 60⌋) ∧
      mn < 100 ∧ cs ≤ 6000 ∧
      fmtLine ⟨q, tx⟩ = '[' :: digitChar (mn / 10) :: digitChar (mn % 10) :: ':' ::
        digitChar (cs / 100 / 10) :: digitChar (cs / 100 % 10) :: '.' ::
        digitChar (cs % 100 / 10) :: digitChar (cs % 100 % 10) :: ']' :: ' ' :: tx := by
  have hM0 : (0:ℤ) ≤ ⌊q / 60⌋ := Int.floor_nonneg.mpr (by positivity)
  have hM99 : ⌊q / 60⌋ ≤ 99 := by
    have h1 : q / 60 < 100 := by rw [div_lt_iff₀ (by norm_num : (0:ℚ) < 60)]; linarith
    have h2 : ⌊q / 60⌋ < 100 := Int.floor_lt.mpr (by exact_mod_cast h1)
    omega
  have hrem0 : 0 ≤ q - 60 * ⌊q / 60⌋ := by
    have h1 := Int.floor_le (q / 60)
    have h2 : (60:ℚ) * ⌊q / 60⌋ ≤ 60 * (q / 60) :=
      mul_le_mul_of_nonneg_left h1 (by norm_num)
    have h3 : (60:ℚ) * (q / 60) = q := by field_simp
    linarith
  have hrem60 : q - 60 * ⌊q / 60⌋ < 60 := by
    have h1 := Int.lt_floor_add_one (q / 60)
    have h2 : (60:ℚ) * (q / 60) < 60 * (⌊q / 60⌋ + 1) :=
      (mul_lt_mul_left (by norm_num)).mpr h1
    have h3 : (60:ℚ) * (q / 60) = q := by field_simp
    linarith
  have hcs0 : (0:ℤ) ≤ round2 (q - 60 * ⌊q / 60⌋) := Int.floor_nonneg.mpr (by linarith)
  have hcs6000 : round2 (q - 60 * ⌊q / 60⌋) ≤ 6000 := by
    have h1 : (q - 60 * ⌊q / 60⌋) * 100 + 1/2 < 6001 := by linarith
    have h2 : round2 (q - 60 * ⌊q / 60⌋) < 6001 := Int.floor_lt.mpr (by exact_mod_cast h1)
    omega
  obtain ⟨mn, hmncast⟩ : ∃ m : ℕ, (m:ℤ) = ⌊q / 60⌋ := ⟨_, Int.toNat_of_nonneg hM0⟩
  obtain ⟨cs, hcscast⟩ : ∃ c : ℕ, (c:ℤ) = round2 (q - 60 * ⌊q / 60⌋) :=
    ⟨_, Int.toNat_of_nonneg hcs0⟩
  have hmn99 : mn < 100 := by omega
  have hcsle : cs ≤ 6000 := by omega
  have hmnNat : (⌊q / 60⌋).toNat = mn := by omega
  have hcsNat : (round2 (q - 60 * ⌊q / 60⌋)).toNat = cs := by omega
  refine ⟨mn, cs, hmncast, hcscast, hmn99, hcsle, ?_⟩
  show '[' :: (padTo2 (natChars (⌊q / 60⌋).toNat) ++ ':' :: fmtSeconds q ++ ']' :: ' ' :: tx)
    = _
  have hsec : fmtSeconds q = pad2 ((round2 (q - 60 * ⌊q / 60⌋)).toNat / 100) ++
      '.' :: pad2 ((round2 (q - 60 * ⌊q / 60⌋)).toNat % 100) := rfl
  rw [hsec, hmnNat, hcsNat, show padTo2 (natChars mn) = pad2 mn from rfl, pad2_eq mn hmn99,
    pad2_eq (cs / 100) (by omega), pad2_eq (cs % 100) (Nat.mod_lt _ (by norm_num))]
  rfl

/-- A serialized line contains no newline when the entry's text does not. -/
theorem fmtLine_no_nl (e : LrcLine) (h0 : 0 ≤ e.seconds) (h6 : e.seconds < 6000)
    (hnl : '\n' ∉ e.text) : '\n' ∉ fmtLine e := by
  obtain ⟨q, tx⟩ := e
  dsimp only at h0 h6 hnl
  obtain ⟨mn, cs, _, _, hmn, hcs, hfm⟩ := fmtLine_expand q tx h0 h6
  rw [hfm]
  have d1 := digitChar_spec (mn / 10) (by omega)
  have d2 := digitChar_spec (mn % 10) (Nat.mod_lt _ (by norm_num))
  have d3 := digitChar_spec (cs / 100 / 10) (by omega)
  have d4 := digitChar_spec (cs / 100 % 10) (Nat.mod_lt _ (by norm_num))
  have d5 := digitChar_spec (cs % 100 / 10) (by omega)
  have d6 := digitChar_spec (cs % 100 % 10) (Nat.mod_lt _ (by norm_num))
  intro hmem
  simp only [List.mem_cons] at hmem
  rcases hmem with h | h | h | h | h | h | h | h | h | h | h | h
  · exact absurd h.symm (by decide)
  · exact d1.2.2.2.1 h.symm
  · exact d2.2.2.2.1 h.symm
  · exact absurd h.symm (by decide)
  · exact d3.2.2.2.1 h.symm
  · exact d4.2.2.2.1 h.symm
  · exact absurd h.symm (by decide)
  · exact d5.2.2.2.1 h.symm
  · exact d6.2.2.2.1 h.symm
  · exact absurd h.symm (by decide)
  · exact absurd h.symm (by decide)
  · exact hnl h

/-- Serializing an entry with a trimmed text and a timestamp in
`[0, 6000)` produces a line that parses back, with the timestamp rounded
to two decimals. -/
theorem parseLine_fmtLine (e : LrcLine) (h0 : 0 ≤ e.seconds) (h6 : e.seconds < 6000)
    (ht : trimCh e.text = e.text) :
    parseLine (fmtLine e) = some ⟨((round2 e.seconds : ℤ) : ℚ) / 100, e.text⟩ := by
  obtain ⟨q, tx⟩ := e
  dsimp only at h0 h6 ht ⊢
  obtain ⟨mn, cs, hmncast, hcscast, hmn99, hcsle, hfm⟩ := fmtLine_expand q tx h0 h6
  -- digit values of the printed digits
  have d1 := digitChar_spec (mn / 10) (by omega)
  have d2 := digitChar_spec (mn % 10) (Nat.mod_lt _ (by norm_num))
  have d3 := digitChar_spec (cs / 100 / 10) (by omega)
  have d4 := digitChar_spec (cs / 100 % 10) (Nat.mod_lt _ (by norm_num))
  have d5 := digitChar_spec (cs % 100 / 10) (by omega)
  have d6 := digitChar_spec (cs % 100 % 10) (Nat.mod_lt _ (by norm_num))
  refine (parseLine_shape (fmtLine ⟨q, tx⟩) _).mpr (Or.inl ⟨digitChar (mn / 10),
    digitChar (mn % 10), digitChar (cs / 100 / 10), digitChar (cs / 100 % 10),
    digitChar (cs % 100 / 10), digitChar (cs % 100 % 10), ' ' :: tx,
    d1.1, d2.1, d3.1, d4.1, d5.1, d6.1, hfm, ?_, ?_⟩)
  · -- the reparsed timestamp is the two-decimal rounding of the original
    show ((round2 q : ℤ) : ℚ) / 100 = _
    rw [d1.2.1, d2.2.1, d3.2.1, d4.2.1, d5.2.1, d6.2.1,
      Nat.div_add_mod mn 10, Nat.div_add_mod (cs / 100) 10, Nat.div_add_mod (cs % 100) 10]
    have hsplit : round2 q = 6000 * ⌊q / 60⌋ + round2 (q - 60 * ⌊q / 60⌋) := by
      have hq60 : q * 100 + 1/2 =
          ((6000 * ⌊q / 60⌋ : ℤ) : ℚ) + ((q - 60 * ⌊q / 60⌋) * 100 + 1/2) := by
        push_cast
        ring
      unfold round2
      rw [hq60, Int.floor_int_add]
    have hval : ((round2 q : ℤ) : ℚ) = 6000 * ((mn : ℕ) : ℚ) + ((cs : ℕ) : ℚ) := by
      rw [hsplit, ← hcscast, ← hmncast]
      push_cast
      ring
    have hcsq : ((cs : ℕ) : ℚ) = 100 * ((cs / 100 : ℕ) : ℚ) + ((cs % 100 : ℕ) : ℚ) := by
      exact_mod_cast (Nat.div_add_mod cs 100).symm
    rw [hval, hcsq]
    ring
  · show tx = trimCh (' ' :: tx)
    rw [trimCh_cons_ws ' ' tx rfl, ht]

/-! ## Sorting facts for the parsed line list -/

theorem lrcLE_trans (a b c : LrcLine) (h1 : lrcLE a b) (h2 : lrcLE b c) : lrcLE a c := by
  simp only [lrcLE, decide_eq_true_eq] at *
  exact le_trans h1 h2

theorem lrcLE_total (a b : LrcLine) : lrcLE a b || lrcLE b a := by
  simp only [lrcLE, Bool.or_eq_true, decide_eq_true_eq]
  exact le_total a.seconds b.seconds

theorem filterMap_eq_map_of {α β : Type} (l : List α) (F : α → Option β) (G : α → β)
    (h : ∀ x ∈ l, F x = some (G x)) : l.filterMap F = l.map G := by
  induction l with
  | nil => rfl
  | cons a t ih =>
    rw [List.filterMap_cons, h a (List.mem_cons_self a t), List.map_cons,
      ih fun x hx => h x (List.mem_cons_of_mem a hx)]

/-- Every entry `parseLrc` returns has a timestamp in `[0, 6040)` and a
trimmed, newline-free text. -/
theorem parseLrcCh_good (doc : List Char) :
    ∀ e ∈ parseLrcCh doc,
      0 ≤ e.seconds ∧ e.seconds < 6040 ∧ trimCh e.text = e.text ∧ '\n' ∉ e.text := by
  intro e he
  rw [parseLrcCh, List.mem_mergeSort, parseLrcRawCh, List.mem_filterMap] at he
  obtain ⟨l, hl, hpl⟩ := he
  exact parseLine_good l e hpl (mem_splitNl_no_nl doc l hl)

theorem parseLrcCh_sorted (doc : List Char) :
    (parseLrcCh doc).Pairwise fun a b => a.seconds ≤ b.seconds := by
  have h := @List.sorted_mergeSort _ lrcLE lrcLE_trans lrcLE_total (parseLrcRawCh doc)
  exact h.imp fun hab => by simpa [lrcLE] using hab

/-! ## C2: the parser's contract -/

/-- C2: for every input string, parsing keeps exactly the lines the
timestamp matcher accepts (ignoring every other line, metadata headers
included); a line is accepted iff it starts with a
`[two-digit:two-digit.(two-or-three-digit)]` header, in which case the
timestamp is minutes times sixty plus the fractional seconds value and
the text is the trimmed remainder; and the result is sorted by
non-decreasing timestamp with a stable sort (equal-timestamp entries
keep the relative order they had in the line scan). -/
theorem c2_parser_spec (s : List Char) :
    List.Perm (parseLrcCh s) ((splitNl s).filterMap parseLine) ∧
    (∀ l e, parseLine l = some e ↔
      ((∃ c1 c2 c4 c5 f1 f2 text,
          c1.isDigit ∧ c2.isDigit ∧ c4.isDigit ∧ c5.isDigit ∧ f1.isDigit ∧ f2.isDigit ∧
          l = '[' :: c1 :: c2 :: ':' :: c4 :: c5 :: '.' :: f1 :: f2 :: ']' :: text ∧
          e.seconds = ((10 * digitVal c1 + digitVal c2 : Nat) : ℚ) * 60 +
            ((10 * digitVal c4 + digitVal c5 : Nat) : ℚ) +
            ((10 * digitVal f1 + digitVal f2 : Nat) : ℚ) / 100 ∧
          e.text = trimCh text) ∨
       (∃ c1 c2 c4 c5 f1 f2 f3 text,
          c1.isDigit ∧ c2.isDigit ∧ c4.isDigit ∧ c5.isDigit ∧
          f1.isDigit ∧ f2.isDigit ∧ f3.isDigit ∧
          l = '[' :: c1 :: c2 :: ':' :: c4 :: c5 :: '.' :: f1 :: f2 :: f3 :: ']' :: text ∧
          e.seconds = ((10 * digitVal c1 + digitVal c2 : Nat) : ℚ) * 60 +
            ((10 * digitVal c4 + digitVal c5 : Nat) : ℚ) +
            ((100 * digitVal f1 + 10 * digitVal f2 + digitVal f3 : Nat) : ℚ) / 1000 ∧
          e.text = trimCh text))) ∧
    (parseLrcCh s).Pairwise (fun a b => a.seconds ≤ b.seconds) ∧
    (∀ q : ℚ, (parseLrcCh s).filter (fun e => decide (e.seconds = q)) =
      ((splitNl s).filterMap parseLine).filter fun e => decide (e.seconds = q)) := by
  refine ⟨List.mergeSort_perm (parseLrcRawCh s) lrcLE, parseLine_shape,
    parseLrcCh_sorted s, fun q => ?_⟩
  have hall : ∀ e ∈ (parseLrcRawCh s).filter (fun e => decide (e.seconds = q)), e.seconds = q :=
    fun e he => of_decide_eq_true (List.mem_filter.mp he).2
  have hpw : ((parseLrcRawCh s).filter fun e => decide (e.seconds = q)).Pairwise
      (fun a b => lrcLE a b = true) := by
    refine List.pairwise_of_forall_mem_list fun a ha b hb => ?_
    simp only [lrcLE, hall a ha, hall b hb, decide_eq_true_eq]
    exact le_refl q
  have hsub : List.Sublist ((parseLrcRawCh s).filter fun e => decide (e.seconds = q))
      (parseLrcCh s) :=
    List.sublist_mergeSort lrcLE_trans lrcLE_total hpw (List.filter_sublist _)
  have hsub2 : List.Sublist ((parseLrcRawCh s).filter fun e => decide (e.seconds = q))
      ((parseLrcCh s).filter fun e => decide (e.seconds = q)) := by
    have h1 := hsub.filter fun e => decide (e.seconds = q)
    rwa [List.filter_eq_self.mpr fun a ha => (List.mem_filter.mp ha).2] at h1
  have hlen : ((parseLrcCh s).filter fun e => decide (e.seconds = q)).length =
      ((parseLrcRawCh s).filter fun e => decide (e.seconds = q)).length :=
    ((List.mergeSort_perm (parseLrcRawCh s) lrcLE).filter _).length_eq
  exact (hsub2.eq_of_length hlen.symm).symm

/-! ## C1: the parse/serialize round trip at two-decimal precision -/

/-- C1 (amended): for a document whose lines matched the timestamp
pattern, parse–serialize–parse agrees with a single parse on every
(timestamp, text) pair at two-decimal precision, provided every parsed
timestamp is below 6000 seconds (100 minutes) — beyond that the
serializer emits a three-digit minutes field the parser rejects. -/
theorem c1_roundtrip_two_decimals (doc : List Char)
    (hbound : ∀ e ∈ parseLrcCh doc, e.seconds < 6000) :
    (parseLrcCh (stringifyLines (parseLrcCh doc))).map toC2 = (parseLrcCh doc).map toC2 := by
  by_cases hnil : parseLrcCh doc = []
  · rw [hnil]
    simp [stringifyLines, parseLrcCh, parseLrcRawCh, splitNl, parseLine, joinNl]
  · have hgood := parseLrcCh_good doc
    have hsorted := parseLrcCh_sorted doc
    have hpieces : ∀ p ∈ (parseLrcCh doc).map fmtLine, '\n' ∉ p := by
      intro p hp
      rw [List.mem_map] at hp
      obtain ⟨e, he, rfl⟩ := hp
      exact fmtLine_no_nl e (hgood e he).1 (hbound e he) (hgood e he).2.2.2
    have hsplitNl : splitNl (stringifyLines (parseLrcCh doc)) = (parseLrcCh doc).map fmtLine := by
      rw [stringifyLines]
      exact splitNl_joinNl _ (by simpa using hnil) hpieces
    have hre : ((parseLrcCh doc).map fmtLine).filterMap parseLine
        = (parseLrcCh doc).map fun e =>
            (⟨((round2 e.seconds : ℤ) : ℚ) / 100, e.text⟩ : LrcLine) := by
      rw [List.filterMap_map]
      exact filterMap_eq_map_of _ _ _ fun e he =>
        parseLine_fmtLine e (hgood e he).1 (hbound e he) (hgood e he).2.2.1
    have hsorted2 : ((parseLrcCh doc).map fun e =>
        (⟨((round2 e.seconds : ℤ) : ℚ) / 100, e.text⟩ : LrcLine)).Pairwise
          (fun a b => lrcLE a b = true) := by
      rw [List.pairwise_map]
      refine hsorted.imp fun hab => ?_
      simp only [lrcLE, decide_eq_true_eq]
      have h1 : ((round2 _ : ℤ) : ℚ) ≤ ((round2 _ : ℤ) : ℚ) := Int.cast_le.mpr (round2_mono hab)
      linarith
    show (((splitNl (stringifyLines (parseLrcCh doc))).filterMap parseLine).mergeSort
      lrcLE).map toC2 = _
    rw [hsplitNl, hre, List.mergeSort_of_sorted hsorted2, List.map_map]
    exact List.map_congr_left fun e he => by
      simp only [Function.comp_apply, toC2, round2_intCast_div]

theorem ofDoc_parseLine : parseLine overflowDoc = some ⟨(603999/100 : ℚ), ['x']⟩ := by
  have h0 : parseLine overflowDoc = some ⟨((10 * digitVal '9' + digitVal '9' : Nat) : ℚ) * 60 +
      ((10 * digitVal '9' + digitVal '9' : Nat) : ℚ) +
      ((10 * digitVal '9' + digitVal '9' : Nat) : ℚ) / 100, ['x']⟩ := rfl
  rw [h0, show digitVal '9' = 9 from rfl]
  norm_num

theorem ofDoc_parse : parseLrcCh overflowDoc = [⟨(603999/100 : ℚ), ['x']⟩] := by
  have h1 : parseLrcRawCh overflowDoc = [⟨(603999/100 : ℚ), ['x']⟩] := by
    show (splitNl overflowDoc).filterMap parseLine = _
    rw [show splitNl overflowDoc = [overflowDoc] from rfl, List.filterMap_cons, ofDoc_parseLine]
    rfl
  show (parseLrcRawCh overflowDoc).mergeSort lrcLE = _
  rw [h1, List.mergeSort_singleton]

theorem ofDoc_ser : stringifyLines [(⟨(603999/100 : ℚ), ['x']⟩ : LrcLine)]
    = "[100:39.99] x".data := by
  show joinNl [fmtLine ⟨(603999/100 : ℚ), ['x']⟩] = _
  show fmtLine ⟨(603999/100 : ℚ), ['x']⟩ = _
  have hfloor : (⌊(603999/100 : ℚ) / 60⌋) = 100 := by norm_num
  have hrem : (603999/100 : ℚ) - 60 * ((100 : ℤ) : ℚ) = 3999/100 := by norm_num
  have hr2 : round2 ((3999 : ℚ)/100) = 3999 := by unfold round2; norm_num
  show '[' :: (padTo2 (natChars (⌊(603999/100 : ℚ) / 60⌋).toNat) ++
    ':' :: fmtSeconds (603999/100) ++ ']' :: ' ' :: ['x']) = _
  rw [show fmtSeconds (603999/100 : ℚ) =
    pad2 ((round2 ((603999/100 : ℚ) - 60 * ⌊(603999/100 : ℚ) / 60⌋)).toNat / 100) ++
    '.' :: pad2 ((round2 ((603999/100 : ℚ) - 60 * ⌊(603999/100 : ℚ) / 60⌋)).toNat % 100) from rfl]
  rw [hfloor, hrem, hr2]
  decide

theorem ofDoc_reparse : parseLrcCh ("[100:39.99] x".data) = [] := by
  show (((splitNl ("[100:39.99] x".data)).filterMap parseLine)).mergeSort lrcLE = []
  rw [show (splitNl ("[100:39.99] x".data)).filterMap parseLine = [] from rfl,
    List.mergeSort_nil]

/-- C1 counterexample: the document `"[99:99.99] x"` matches the
timestamp pattern and parses to a 6039.99-second line, but serializing
prints the minutes as the three-digit `100`, so the reparse drops the
line and the round-trip law fails as stated. -/
theorem c1_roundtrip_counterexample :
    ¬((parseLrcCh (stringifyLines (parseLrcCh overflowDoc))).map toC2 =
      (parseLrcCh overflowDoc).map toC2) := by
  rw [ofDoc_parse, ofDoc_ser, ofDoc_reparse]
  simp

theorem rtDoc_parse : parseLrcCh rtDoc =
    [⟨(5 : ℚ), "line two".data⟩, ⟨(25/2 : ℚ), "line one".data⟩] := by
  have hp1 : parseLine ("[00:05.00] line two".data) = some ⟨(5 : ℚ), "line two".data⟩ := by
    have h0 : parseLine ("[00:05.00] line two".data) =
        some ⟨((10 * digitVal '0' + digitVal '0' : Nat) : ℚ) * 60 +
          ((10 * digitVal '0' + digitVal '5' : Nat) : ℚ) +
          ((10 * digitVal '0' + digitVal '0' : Nat) : ℚ) / 100, "line two".data⟩ := rfl
    rw [h0, show digitVal '0' = 0 from rfl, show digitVal '5' = 5 from rfl]
    norm_num
  have hp2 : parseLine ("[00:12.50] line one".data) = some ⟨(25/2 : ℚ), "line one".data⟩ := by
    have h0 : parseLine ("[00:12.50] line one".data) =
        some ⟨((10 * digitVal '0' + digitVal '0' : Nat) : ℚ) * 60 +
          ((10 * digitVal '1' + digitVal '2' : Nat) : ℚ) +
          ((10 * digitVal '5' + digitVal '0' : Nat) : ℚ) / 100, "line one".data⟩ := rfl
    rw [h0, show digitVal '0' = 0 from rfl, show digitVal '1' = 1 from rfl,
      show digitVal '2' = 2 from rfl, show digitVal '5' = 5 from rfl]
    norm_num
  have hraw : parseLrcRawCh rtDoc =
      [⟨(5 : ℚ), "line two".data⟩, ⟨(25/2 : ℚ), "line one".data⟩] := by
    show (splitNl rtDoc).filterMap parseLine = _
    rw [show splitNl rtDoc = ["[00:05.00] line two".data, "[00:12.50] line one".data] from rfl,
      List.filterMap_cons, hp1, List.filterMap_cons, hp2]
    rfl
  show (parseLrcRawCh rtDoc).mergeSort lrcLE = _
  rw [hraw]
  refine List.mergeSort_of_sorted ?_
  refine List.pairwise_cons.mpr ⟨?_, List.pairwise_singleton _ _⟩
  intro b hb
  rw [List.mem_singleton] at hb
  subst hb
  simp only [lrcLE, decide_eq_true_eq]
  norm_num

theorem c1_roundtrip_witness :
    (parseLrcCh (stringifyLines (parseLrcCh rtDoc))).map toC2 =
      (parseLrcCh rtDoc).map toC2 :=
  c1_roundtrip_two_decimals rtDoc (by
    rw [rtDoc_parse]
    intro e he
    rcases List.mem_cons.mp he with h | h
    · subst h; norm_num
    · rw [List.mem_singleton] at h; subst h; norm_num)

/-! ## C3: WAV sample scaling -/

/-- C3 (amended): in the WAV encoder every float sample is clamped to
`[-1, 1]`; a clamped sample strictly below `-0.5` is scaled by 32768 and
any other (the source tests `0.5 + sample < 0`, not the sign) by 32767;
the result is truncated toward zero and written as little-endian 16-bit
words immediately after the 44-byte header. -/
theorem c3_wav_scaling (channels : List (List ℚ)) (len sr : Nat) (x : ℚ) :
    (bufferToWav channels len sr).drop 44 =
      (List.range len).flatMap (fun pos =>
        channels.flatMap fun ch => int16le (convSample (ch.getD pos 0))) ∧
    (-1 ≤ clamp x ∧ clamp x ≤ 1) ∧
    (clamp x < -(1/2) → convSample x = truncQ (clamp x * 32768)) ∧
    (-(1/2) ≤ clamp x → convSample x = truncQ (clamp x * 32767)) := by
  refine ⟨?_, ⟨le_max_left _ _, max_le (by norm_num) (min_le_left _ _)⟩, ?_, ?_⟩
  · show (wavHeader channels.length len sr ++ wavData channels len).drop 44 = _
    rw [show (44 : Nat) = (wavHeader channels.length len sr).length from rfl, List.drop_left]
    rfl
  · intro h
    unfold convSample
    rw [if_pos (by linarith)]
  · intro h
    unfold convSample
    rw [if_neg (by push_neg; linarith)]

/-- C3 counterexample: the clamped sample `-1/4` is negative, yet the
encoder scales it by 32767 (giving `-8191`), not by 32768 as the claim's
negative/non-negative split would demand (`-8192`). -/
theorem c3_scaling_counterexample :
    convSample (-(1/4)) = -8191 ∧ truncQ (clamp (-(1/4)) * 32768) = -8192 ∧
    (-8191 : ℤ) ≠ -8192 := by
  refine ⟨?_, ?_, by decide⟩
  · unfold convSample clamp truncQ
    norm_num
  · unfold clamp truncQ
    norm_num

/-! ## C4: which decoded tag frame wins -/

theorem tagTexts_cons_self (fid text : String) (tr : List (String × String)) :
    tagTexts fid ((fid, text) :: tr) = text :: tagTexts fid tr := by
  simp [tagTexts]

theorem tagTexts_cons_other (fid fid2 text : String) (tr : List (String × String))
    (h : ¬fid2 = fid) : tagTexts fid ((fid2, text) :: tr) = tagTexts fid tr := by
  simp [tagTexts, h]

theorem lastKeep_cons (a : Option String) (t : String) (ts : List String) :
    lastKeep a (t :: ts) = lastKeep (if t ≠ "" then some t else a) ts := rfl

theorem tagStep_fst_tit2 (text : String) (acc : Option String × Option String) :
    (tagStep "TIT2" text acc).1 = if text ≠ "" then some text else acc.1 := by
  simp [tagStep]

theorem tagStep_snd_tit2 (text : String) (acc : Option String × Option String) :
    (tagStep "TIT2" text acc).2 = acc.2 := by
  simp [tagStep]

theorem tagStep_fst_tpe1 (text : String) (acc : Option String × Option String) :
    (tagStep "TPE1" text acc).1 = acc.1 := by
  simp [tagStep]

theorem tagStep_snd_tpe1 (text : String) (acc : Option String × Option String) :
    (tagStep "TPE1" text acc).2 = if text ≠ "" then some text else acc.2 := by
  simp [tagStep]

theorem lastKeep_tag_cons (fid txt : String) (acc p : Option String × Option String)
    (tr : List (String × String)) (hid : fid = "TIT2" ∨ fid = "TPE1")
    (ih1 : p.1 = lastKeep (tagStep fid txt acc).1 (tagTexts "TIT2" tr))
    (ih2 : p.2 = lastKeep (tagStep fid txt acc).2 (tagTexts "TPE1" tr)) :
    p.1 = lastKeep acc.1 (tagTexts "TIT2" ((fid, txt) :: tr)) ∧
    p.2 = lastKeep acc.2 (tagTexts "TPE1" ((fid, txt) :: tr)) := by
  rcases hid with h | h <;> subst h
  · exact ⟨by rw [tagTexts_cons_self, lastKeep_cons, ih1, tagStep_fst_tit2],
      by rw [tagTexts_cons_other _ _ _ _ (by decide), ih2, tagStep_snd_tit2]⟩
  · exact ⟨by rw [tagTexts_cons_other _ _ _ _ (by decide), ih1, tagStep_fst_tpe1],
      by rw [tagTexts_cons_self, lastKeep_cons, ih2, tagStep_snd_tpe1]⟩

theorem walkFrames_lastKeep (b : List Nat) (version size limit : Nat) :
    ∀ (fuel offset : Nat) (acc : Option String × Option String),
      (walkFrames b version size limit fuel offset acc).1.1 =
        lastKeep acc.1 (tagTexts "TIT2" (walkFrames b version size limit fuel offset acc).2) ∧
      (walkFrames b version size limit fuel offset acc).1.2 =
        lastKeep acc.2 (tagTexts "TPE1" (walkFrames b version size limit fuel offset acc).2)
  | 0, offset, acc => by simp [walkFrames, tagTexts, lastKeep]
  | fuel + 1, offset, acc => by
    rw [walkFrames]
    dsimp only
    split_ifs
    all_goals first
      | (simp [tagTexts, lastKeep]; done)
      | (exact walkFrames_lastKeep b version size limit fuel _ acc)
      | (exact lastKeep_tag_cons _ _ acc _ _ (by assumption)
          (walkFrames_lastKeep b version size limit fuel _ _).1
          (walkFrames_lastKeep b version size limit fuel _ _).2)

theorem lastKeep_spec (a : Option String) (ts : List String) :
    lastKeep a ts = ((ts.filter fun t => !(t == "")).getLast?).or a := by
  induction ts using List.reverseRecOn with
  | nil => simp [lastKeep]
  | append_singleton ts t ih =>
    rw [lastKeep, List.foldl_append]
    show (if t ≠ "" then some t else lastKeep a ts) = _
    rw [List.filter_append]
    by_cases ht : t = ""
    · subst ht
      simp [lastKeep] at ih ⊢
      exact ih
    · have : (([t].filter fun t => !(t == ""))) = [t] := by simp [ht]
      rw [this, if_pos ht, List.getLast?_concat]
      rfl

/-- C4 (amended): when the ID3 walk sees several nonempty `TIT2` (or
`TPE1`) frames, the reported field is the LAST nonempty decoded value of
the walk — each nonempty value overwrites the previous one — while an
empty decoded value never overwrites an already-recorded one. -/
theorem c4_last_nonempty_wins (b : List Nat) :
    (extractTags b).1 =
      ((tagTexts "TIT2" (id3Walk b).2).filter fun t => !(t == "")).getLast? ∧
    (extractTags b).2 =
      ((tagTexts "TPE1" (id3Walk b).2).filter fun t => !(t == "")).getLast? := by
  unfold extractTags id3Walk
  split_ifs with h1 h2
  · simp [tagTexts]
  · have h := walkFrames_lastKeep b (b.getD 3 0) (synchsafe32 b 6)
      (min (synchsafe32 b 6 + 10) b.length) (min (synchsafe32 b 6 + 10) b.length + 1) 10
      (none, none)
    rw [h.1, h.2, lastKeep_spec, lastKeep_spec]
    constructor <;> simp only [Option.or_none]
  · simp [tagTexts]

/-- C4 counterexample: a buffer with two nonempty `TIT2` frames, `"A"`
then `"B"`, reports `"B"` — the claim's "first non-empty decoded value"
would be `"A"`. -/
theorem c4_counterexample :
    (extractTags twoTitleBuf).1 = some "B" ∧
    tagTexts "TIT2" (id3Walk twoTitleBuf).2 = ["A", "B"] ∧
    some "B" ≠ some "A" := by
  refine ⟨by decide, by decide, by decide⟩

/-! ## C5, C6, C7: metadata resolution and its fallbacks -/

theorem splitGo_ne_nil (sep : List Char) : ∀ (fuel : Nat) (l acc : List Char),
    splitGo sep fuel l acc ≠ []
  | 0, l, acc => by simp [splitGo]
  | fuel + 1, l, acc => by
    rw [splitGo.eq_def]
    dsimp only
    split_ifs with h
    · simp
    · cases l with
      | nil => simp
      | cons c r => exact splitGo_ne_nil sep fuel r (c :: acc)

theorem joinSep_splitGo (sep : List Char) : ∀ (fuel : Nat) (l acc : List Char),
    joinSep sep (splitGo sep fuel l acc) = acc.reverse ++ l
  | 0, l, acc => by simp [splitGo, joinSep]
  | fuel + 1, l, acc => by
    rw [splitGo.eq_def]
    dsimp only
    split_ifs with h
    · obtain ⟨hne, hpre⟩ := h
      obtain ⟨t, ht⟩ := List.isPrefixOf_iff_prefix.mp hpre
      have hdrop : l.drop sep.length = t := by rw [← ht, List.drop_left]
      have hjrec := joinSep_splitGo sep fuel (l.drop sep.length) []
      cases hsplit : splitGo sep fuel (l.drop sep.length) [] with
      | nil => exact absurd hsplit (splitGo_ne_nil sep fuel _ _)
      | cons p ps =>
        show acc.reverse ++ sep ++ joinSep sep (p :: ps) = acc.reverse ++ l
        rw [← hsplit, hjrec, hdrop]
        simp [← ht]
    · cases l with
      | nil => simp [joinSep]
      | cons c r =>
        rw [joinSep_splitGo sep fuel r (c :: acc)]
        simp

theorem strContains_iff_parts (sep : List Char) (hsep : sep ≠ []) :
    ∀ (fuel : Nat) (l acc : List Char), l.length ≤ fuel →
      (strContainsCh l sep = true ↔ 2 ≤ (splitGo sep fuel l acc).length)
  | 0, l, acc, hlen => by
    have : l = [] := List.length_eq_zero.mp (by omega)
    subst this
    simp [splitGo, strContainsCh, List.isEmpty_iff, hsep]
  | fuel + 1, l, acc, hlen => by
    rw [splitGo.eq_def]
    dsimp only
    split_ifs with h
    · obtain ⟨-, hpre⟩ := h
      cases l with
      | nil =>
        exact absurd (List.isPrefixOf_iff_prefix.mp hpre)
          (by simp [List.prefix_nil]; exact hsep)
      | cons c r =>
        constructor
        · intro _
          have h1 := splitGo_ne_nil sep fuel ((c :: r).drop sep.length) []
          have h2 : 1 ≤ (splitGo sep fuel ((c :: r).drop sep.length) []).length :=
            Nat.one_le_iff_ne_zero.mpr (by simpa [List.length_eq_zero] using h1)
          simpa using h2
        · intro _
          simp [strContainsCh, hpre]
    · cases l with
      | nil => simp [splitGo, strContainsCh, List.isEmpty_iff, hsep]
      | cons c r =>
        have hnp : sep.isPrefixOf (c :: r) = false := by
          rcases Bool.eq_false_or_eq_true (sep.isPrefixOf (c :: r)) with hb | hb
          · exact absurd ⟨hsep, hb⟩ h
          · exact hb
        rw [show strContainsCh (c :: r) sep =
          (sep.isPrefixOf (c :: r) || strContainsCh r sep) from rfl, hnp, Bool.false_or]
        exact strContains_iff_parts sep hsep fuel r (c :: acc) (by simpa using Nat.le_of_succ_le_succ hlen)

/-- C5: the metadata resolver prefers a tag field that is nonempty after
trimming; otherwise the filename-derived field; the artist further falls
back to the literal "Unknown" when both sources are empty; the
filename-derived title is always defined. -/
theorem c5_metadata_precedence (tT tA : Option String) (fn : String) :
    (tagUsable tT = true → (resolveMeta tT tA fn).title = tT) ∧
    (tagUsable tT = false →
      (resolveMeta tT tA fn).title = (parseMetadataFromFilename fn).title) ∧
    (∃ s, (parseMetadataFromFilename fn).title = some s) ∧
    (tagUsable tA = true → (resolveMeta tT tA fn).artist = tA) ∧
    (tagUsable tA = false → ∀ a, (parseMetadataFromFilename fn).artist = some a → ¬a = "" →
      (resolveMeta tT tA fn).artist = some a) ∧
    (tagUsable tA = false →
      ((parseMetadataFromFilename fn).artist = none ∨
       (parseMetadataFromFilename fn).artist = some "") →
      (resolveMeta tT tA fn).artist = some "Unknown") ∧
    (∀ o : Option String, tagUsable o = true ↔ ∃ t, o = some t ∧ ¬strTrim t = "") := by
  refine ⟨?_, ?_, ?_, ?_, ?_, ?_, ?_⟩
  · intro h
    simp [resolveMeta, h]
  · intro h
    simp [resolveMeta, h]
  · unfold parseMetadataFromFilename
    dsimp only
    split_ifs <;> exact ⟨_, rfl⟩
  · intro h
    simp [resolveMeta, h]
  · intro h a ha hne
    simp [resolveMeta, h, ha, hne]
  · intro h hsrc
    rcases hsrc with hs | hs <;> simp [resolveMeta, h, hs]
  · intro o
    cases o with
    | none => simp [tagUsable]
    | some t =>
      simp only [tagUsable, Bool.and_eq_true, decide_eq_true_eq, Option.some.injEq]
      constructor
      · rintro ⟨-, h2⟩
        exact ⟨t, rfl, h2⟩
      · rintro ⟨u, rfl, h2⟩
        refine ⟨fun he => h2 ?_, h2⟩
        subst he
        decide

/-- C6: the filename heuristic strips the final extension; when the
remainder contains the literal separator " - " (equivalently, splits
into at least two segments) the first segment, trimmed, is the artist
and the remaining segments re-joined with " - ", trimmed, are the
title; otherwise the whole remainder is the title and the artist is
undefined.  Joining the split segments recovers the remainder exactly,
and the function is total. -/
theorem c6_filename_heuristic (fn : String) :
    (strContainsCh (stripExtCh fn.data) [' ', '-', ' '] = true →
      parseMetadataFromFilename fn =
        { artist := some (String.mk (trimCh
            (splitOnSep (stripExtCh fn.data) [' ', '-', ' ']).headI)),
          title := some (String.mk (trimCh (joinSep [' ', '-', ' ']
            (splitOnSep (stripExtCh fn.data) [' ', '-', ' ']).tail))) }) ∧
    (strContainsCh (stripExtCh fn.data) [' ', '-', ' '] = false →
      parseMetadataFromFilename fn =
        { title := some (String.mk (stripExtCh fn.data)), artist := none }) ∧
    joinSep [' ', '-', ' '] (splitOnSep (stripExtCh fn.data) [' ', '-', ' '])
      = stripExtCh fn.data ∧
    (strContainsCh (stripExtCh fn.data) [' ', '-', ' '] = true ↔
      2 ≤ (splitOnSep (stripExtCh fn.data) [' ', '-', ' ']).length) := by
  have hiff := strContains_iff_parts [' ', '-', ' '] (by decide)
    ((stripExtCh fn.data).length + 1) (stripExtCh fn.data) [] (by omega)
  refine ⟨?_, ?_, ?_, hiff⟩
  · intro h
    have hlen : (splitOnSep (stripExtCh fn.data) [' ', '-', ' ']).length ≥ 2 := hiff.mp h
    unfold parseMetadataFromFilename
    rw [if_pos h, if_pos hlen]
  · intro h
    unfold parseMetadataFromFilename
    rw [if_neg (by simp [h])]
  · have := joinSep_splitGo [' ', '-', ' '] ((stripExtCh fn.data).length + 1)
      (stripExtCh fn.data) []
    simpa [splitOnSep] using this

/-- C7: a buffer lacking the three-byte ID3 magic — or too short for
the ten-byte header, where the real code's byte reads throw and are
caught — contributes no tag data, and the result degrades to the
filename-derived metadata (with the artist's "Unknown" fallback). -/
theorem c7_no_magic_fallback (b : List Nat) (fn : String)
    (h : ¬(b.get? 0 = some 0x49 ∧ b.get? 1 = some 0x44 ∧ b.get? 2 = some 0x33) ∨
      b.length < 10) :
    getTrackMetadata b fn = resolveMeta none none fn ∧
    extractTags b = (none, none) ∧
    (resolveMeta none none fn).title = (parseMetadataFromFilename fn).title ∧
    (resolveMeta none none fn).artist =
      some (match (parseMetadataFromFilename fn).artist with
        | some a => if a = "" then "Unknown" else a
        | none => "Unknown") := by
  have hex : extractTags b = (none, none) := by
    unfold extractTags id3Walk
    rcases h with hm | hs
    · rw [if_neg hm]
    · by_cases h1 : b.get? 0 = some 0x49 ∧ b.get? 1 = some 0x44 ∧ b.get? 2 = some 0x33
      · rw [if_pos h1, if_pos hs]
      · rw [if_neg h1]
  refine ⟨?_, hex, ?_, ?_⟩
  · unfold getTrackMetadata
    rw [hex]
  · simp [resolveMeta, tagUsable]
  · simp [resolveMeta, tagUsable]

theorem c7_fallback_witness :
    getTrackMetadata [] "SingleWord.mp3" = resolveMeta none none "SingleWord.mp3" ∧
    extractTags [] = (none, none) ∧
    (resolveMeta none none "SingleWord.mp3").title =
      (parseMetadataFromFilename "SingleWord.mp3").title ∧
    (resolveMeta none none "SingleWord.mp3").artist =
      some (match (parseMetadataFromFilename "SingleWord.mp3").artist with
        | some a => if a = "" then "Unknown" else a
        | none => "Unknown") :=
  c7_no_magic_fallback [] "SingleWord.mp3" (Or.inl (by decide))

/-! ## C8: the batch orchestrator -/

theorem runBatch_eq_map : ∀ (E : List (String × (Track → Track))) (tracks : List Track),
    runBatch tracks E = tracks.map (fun t => homApply t E)
  | [], tracks => by
    simp [runBatch, homApply]
  | e :: E, tracks => by
    show runBatch (applyUpdate tracks e) E = _
    rw [runBatch_eq_map E (applyUpdate tracks e)]
    unfold applyUpdate
    rw [List.map_map]
    rfl

theorem homApply_filter : ∀ (E : List (String × (Track → Track))) (t : Track),
    (∀ e ∈ E, ∀ u : Track, (e.2 u).id = u.id) →
    homApply t E = applySeq t (E.filter fun e => decide (e.1 = t.id))
  | [], t, _ => rfl
  | e :: E, t, hpres => by
    have hrest : ∀ e' ∈ E, ∀ u : Track, (e'.2 u).id = u.id :=
      fun e' he' => hpres e' (List.mem_cons_of_mem e he')
    show homApply (if t.id = e.1 then e.2 t else t) E = applySeq t
      ((e :: E).filter fun e' => decide (e'.1 = t.id))
    rw [List.filter_cons]
    by_cases h : t.id = e.1
    · rw [if_pos h, if_pos (by simp [h.symm])]
      rw [homApply_filter E (e.2 t) hrest]
      rw [hpres e (List.mem_cons_self e E) t, h]
      rfl
    · rw [if_neg h, if_neg (by simpa using fun hh => h hh.symm)]
      exact homApply_filter E t hrest

theorem processTrackEvents_id_pres (t : Track) (o : Outcome) :
    ∀ e ∈ processTrackEvents t o, ∀ u : Track, (e.2 u).id = u.id := by
  intro e he u
  unfold processTrackEvents at he
  rcases List.mem_cons.mp he with rfl | he
  · rfl
  rcases o with m | m | l
  · rw [List.mem_singleton] at he
    subst he
    rfl
  · rcases List.mem_append.mp he with h | h
    · by_cases hiso : t.useIsolation
      · rw [if_pos hiso, List.mem_singleton] at h
        subst h
        rfl
      · rw [if_neg hiso] at h
        exact absurd h (List.not_mem_nil e)
    · rw [List.mem_singleton] at h
      subst h
      rfl
  · rcases List.mem_append.mp he with h | h
    · by_cases hiso : t.useIsolation
      · rw [if_pos hiso, List.mem_singleton] at h
        subst h
        rfl
      · rw [if_neg hiso] at h
        exact absurd h (List.not_mem_nil e)
    · rw [List.mem_singleton] at h
      subst h
      rfl

theorem applySeq_events (t u : Track) (o : Outcome) :
    applySeq u (processTrackEvents t o) = finalTrack u o ∧
    (finalTrack u o).id = u.id := by
  rcases o with m | m | l <;> by_cases hiso : t.useIsolation <;>
    simp [processTrackEvents, applySeq, hiso, updStart, updGenerating, updError,
      updComplete, finalTrack]

/-- C8: in a batch run — any interleaving of the per-track event
sequences, each addressed by track id — a track whose status is
COMPLETED or whose lrcContent is nonempty after trimming receives no
events and is left unchanged; each processed track ends in the state its
own outcome dictates, independent of its siblings; a failing outcome
sets exactly that track's status to ERROR with the failure message
(leaving its id and content alone), so it never changes any sibling's
terminal state. -/
theorem c8_batch_isolation (tracks : List Track) (E : List (String × (Track → Track)))
    (outcome : String → Outcome)
    (hidpres : ∀ e ∈ E, ∀ u : Track, (e.2 u).id = u.id)
    (hE : ∀ t ∈ tracks, (E.filter fun e => decide (e.1 = t.id)) =
      (if keepTrack t then processTrackEvents t (outcome t.id) else [])) :
    runBatch tracks E = tracks.map (fun t =>
      if keepTrack t then finalTrack t (outcome t.id) else t) ∧
    (∀ t : Track, keepTrack t = false ↔
      (t.status = TrackStatus.COMPLETED ∨
        ∃ c, t.lrcContent = some c ∧ ¬strTrim c = "")) ∧
    (∀ (t : Track) (m : String),
      (finalTrack t (Outcome.genFail m)).status = TrackStatus.ERROR ∧
      (finalTrack t (Outcome.genFail m)).error =
        some (if m = "" then "Generation Failed" else m) ∧
      (finalTrack t (Outcome.genFail m)).lrcContent = t.lrcContent ∧
      (finalTrack t (Outcome.genFail m)).id = t.id) := by
  refine ⟨?_, ?_, fun t m => ⟨rfl, rfl, rfl, rfl⟩⟩
  · rw [runBatch_eq_map]
    refine List.map_congr_left fun t ht => ?_
    rw [homApply_filter E t hidpres, hE t ht]
    by_cases hk : keepTrack t = true
    · rw [if_pos hk, if_pos hk]
      exact (applySeq_events t t (outcome t.id)).1
    · rw [if_neg hk, if_neg hk]
      rfl
  · intro t
    constructor
    · intro h
      unfold keepTrack at h
      rw [Bool.and_eq_false_iff] at h
      rcases h with h | h
      · left
        simpa using h
      · right
        rcases hc : t.lrcContent with - | c
        · rw [hc] at h
          simp at h
        · rw [hc] at h
          simp only [Bool.or_eq_false_iff, beq_eq_false_iff_ne, ne_eq] at h
          by_cases hct : strTrim c = ""
          · by_cases hce : c = ""
            · subst hce
              exact absurd rfl h.1
            · exact absurd hct h.2
          · exact ⟨c, rfl, hct⟩
    · intro h
      unfold keepTrack
      rw [Bool.and_eq_false_iff]
      rcases h with h | ⟨c, hc, hct⟩
      · left
        simp [h]
      · right
        rw [hc]
        have hce : ¬c = "" := fun he => hct (by subst he; decide)
        simp [hce, hct]

theorem c8_batch_witness :
    runBatch [doneTrack, pendingTrack] demoEvents = [doneTrack, pendingTrack].map (fun t =>
      if keepTrack t then finalTrack t (demoOutcome t.id) else t) ∧
    (∀ t : Track, keepTrack t = false ↔
      (t.status = TrackStatus.COMPLETED ∨
        ∃ c, t.lrcContent = some c ∧ ¬strTrim c = "")) ∧
    (∀ (t : Track) (m : String),
      (finalTrack t (Outcome.genFail m)).status = TrackStatus.ERROR ∧
      (finalTrack t (Outcome.genFail m)).error =
        some (if m = "" then "Generation Failed" else m) ∧
      (finalTrack t (Outcome.genFail m)).lrcContent = t.lrcContent ∧
      (finalTrack t (Outcome.genFail m)).id = t.id) :=
  c8_batch_isolation [doneTrack, pendingTrack] demoEvents demoOutcome
    (fun e he u => processTrackEvents_id_pres pendingTrack (Outcome.genFail "boom") e he u)
    (by
      intro t ht
      rcases List.mem_cons.mp ht with rfl | ht
      · rfl
      · rw [List.mem_singleton] at ht
        subst ht
        rfl)

/-! ## C9: the retry loop (`generateLrcFromAudio`, geminiService.ts) -/

/-- A terminal error stops `genLoop` immediately: if attempts `a..a+k-1`
fail non-terminally and attempt `a+k` fails with a terminal error, the loop
returns that error after exactly `k + 1` attempts, having slept the `k`
backoff delays of the retried attempts. -/
theorem genLoop_terminal (results : Nat → Except GenError String) (jitter : Nat → ℚ) :
    ∀ (k a r : Nat), k ≤ r →
      (∀ i, i < k → ∃ e2, results (a + i) = .error e2 ∧ isTerminal e2 = false) →
      ∀ e, results (a + k) = .error e → isTerminal e = true →
      genLoop results jitter a r =
        (.error e, k + 1, (List.range k).map fun i => backoffDelay jitter (a + i))
  | 0, a, r, hkr, hpre, e, he, hterm => by
    rw [genLoop]
    rw [Nat.add_zero] at he
    rw [he]
    dsimp only
    cases r with
    | zero => rfl
    | succ r =>
      dsimp only
      rw [if_pos hterm]
      rfl
  | k + 1, a, r, hkr, hpre, e, he, hterm => by
    obtain ⟨r2, rfl⟩ : ∃ r2, r = r2 + 1 := ⟨r - 1, by omega⟩
    obtain ⟨e0, he0, ht0⟩ := hpre 0 (by omega)
    rw [Nat.add_zero] at he0
    rw [genLoop, he0]
    dsimp only
    rw [if_neg (by rw [ht0]; exact Bool.false_ne_true)]
    have ih := genLoop_terminal results jitter k (a + 1) r2 (by omega)
      (fun i hi => by
        obtain ⟨e2, h1, h2⟩ := hpre (i + 1) (by omega)
        exact ⟨e2, by rw [show a + 1 + i = a + (i + 1) by omega]; exact h1, h2⟩)
      e (by rw [show a + 1 + k = a + (k + 1) by omega]; exact he) hterm
    rw [ih]
    refine congrArg _ (congrArg _ ?_)
    rw [List.range_succ_eq_map, List.map_cons, List.map_map]
    refine congrArg₂ _ (by rw [Nat.add_zero]) ?_
    exact List.map_congr_left fun i _ => by
      show backoffDelay jitter (a + 1 + i) = backoffDelay jitter (a + Nat.succ i)
      rw [show a + 1 + i = a + Nat.succ i by omega]

/-- Exhaustion: if every attempt in the window fails non-terminally and the
last allowed attempt also fails, the loop returns that last error after all
`r + 1` attempts. -/
theorem genLoop_exhaust (results : Nat → Except GenError String) (jitter : Nat → ℚ) :
    ∀ (r a : Nat),
      (∀ i, i < r → ∃ e2, results (a + i) = .error e2 ∧ isTerminal e2 = false) →
      ∀ e, results (a + r) = .error e →
      genLoop results jitter a r =
        (.error e, r + 1, (List.range r).map fun i => backoffDelay jitter (a + i))
  | 0, a, hpre, e, he => by
    rw [genLoop]
    rw [Nat.add_zero] at he
    rw [he]
    rfl
  | r + 1, a, hpre, e, he => by
    obtain ⟨e0, he0, ht0⟩ := hpre 0 (by omega)
    rw [Nat.add_zero] at he0
    rw [genLoop, he0]
    dsimp only
    rw [if_neg (by rw [ht0]; exact Bool.false_ne_true)]
    have ih := genLoop_exhaust results jitter r (a + 1)
      (fun i hi => by
        obtain ⟨e2, h1, h2⟩ := hpre (i + 1) (by omega)
        exact ⟨e2, by rw [show a + 1 + i = a + (i + 1) by omega]; exact h1, h2⟩)
      e (by rw [show a + 1 + r = a + (r + 1) by omega]; exact he)
    rw [ih]
    refine congrArg _ (congrArg _ ?_)
    rw [List.range_succ_eq_map, List.map_cons, List.map_map]
    refine congrArg₂ _ (by rw [Nat.add_zero]) ?_
    exact List.map_congr_left fun i _ => by
      show backoffDelay jitter (a + 1 + i) = backoffDelay jitter (a + Nat.succ i)
      rw [show a + 1 + i = a + Nat.succ i by omega]

/-- **C9.** Retry policy of `generateLrcFromAudio`: an error whose effective
HTTP status is 400, 401, 403 or 404 is terminal — the loop stops right there
and returns that error with no further attempt and no further delay; any
other failure is retried with delay `BASE_DELAY * 2 ^ attempt + jitter` until
`MAX_RETRIES = 3` retries are exhausted (4 attempts in total), after which the
last error is returned; the delays grow strictly when the jitter stays in
`[0, 1000)`. -/
theorem c9_retry_policy (results : Nat → Except GenError String) (jitter : Nat → ℚ) :
    MAX_RETRIES = 3 ∧
    (∀ e : GenError, isTerminal e = true ↔
      (effStatus e = some 400 ∨ effStatus e = some 401 ∨
       effStatus e = some 403 ∨ effStatus e = some 404)) ∧
    (∀ k e, k ≤ MAX_RETRIES →
      (∀ i, i < k → ∃ e2, results i = .error e2 ∧ isTerminal e2 = false) →
      results k = .error e → isTerminal e = true →
      genLoop results jitter 0 MAX_RETRIES =
        (.error e, k + 1, (List.range k).map (backoffDelay jitter))) ∧
    (∀ e, (∀ i, i < MAX_RETRIES → ∃ e2, results i = .error e2 ∧ isTerminal e2 = false) →
      results MAX_RETRIES = .error e →
      genLoop results jitter 0 MAX_RETRIES =
        (.error e, MAX_RETRIES + 1, (List.range MAX_RETRIES).map (backoffDelay jitter))) ∧
    (∀ i, backoffDelay jitter i = BASE_DELAY * 2 ^ i + jitter i) ∧
    ((∀ n, 0 ≤ jitter n ∧ jitter n < 1000) →
      ∀ i j, i < j → backoffDelay jitter i < backoffDelay jitter j) ∧
    (∀ key, key ≠ "" →
      generateLrcFromAudio (some key) results jitter = genLoop results jitter 0 MAX_RETRIES) := by
  refine ⟨rfl, ?_, ?_, ?_, fun i => rfl, ?_, ?_⟩
  · intro e
    unfold isTerminal
    exact decide_eq_true_iff
  · intro k e hk hpre he hterm
    have h := genLoop_terminal results jitter k 0 MAX_RETRIES hk
      (fun i hi => by simpa using hpre i hi) e (by simpa using he) hterm
    rw [h]
    simp only [Nat.zero_add]
  · intro e hpre he
    have h := genLoop_exhaust results jitter MAX_RETRIES 0
      (fun i hi => by simpa using hpre i hi) e (by simpa using he)
    rw [h]
    simp only [Nat.zero_add]
  · intro hj i j hij
    have h1 : (2:ℚ) ^ (i + 1) ≤ 2 ^ j := pow_le_pow_right₀ (by norm_num) (by omega)
    have h3 : (2:ℚ) ^ (i + 1) = 2 ^ i * 2 := pow_succ 2 i
    have h2 : (1:ℚ) ≤ 2 ^ i := one_le_pow₀ (by norm_num)
    obtain ⟨hi0, hi1⟩ := hj i
    obtain ⟨hj0, hj1⟩ := hj j
    unfold backoffDelay BASE_DELAY
    linarith
  · intro key hkey
    unfold generateLrcFromAudio
    dsimp only
    rw [if_neg hkey]

/-! ## C10: bulk LRC matching (`handleBulkLrcUpload`, ConfigurationStep.tsx) -/

/-- `Array.prototype.find` characterization: a found element satisfies the
predicate and everything before it in the list does not. -/
theorem find_some_split {α : Type} (p : α → Bool) :
    ∀ (l : List α) (a : α), l.find? p = some a →
      p a = true ∧ ∃ pre post, l = pre ++ a :: post ∧ ∀ t ∈ pre, p t = false
  | [], a, h => by simp at h
  | b :: l, a, h => by
    rw [List.find?_cons] at h
    cases hp : p b with
    | true =>
      rw [hp] at h
      obtain rfl : b = a := Option.some.inj h
      exact ⟨hp, [], l, rfl, by simp⟩
    | false =>
      rw [hp] at h
      obtain ⟨h1, pre, post, heq, hpre⟩ := find_some_split p l a h
      refine ⟨h1, b :: pre, post, by rw [heq, List.cons_append], ?_⟩
      intro t ht
      rcases List.mem_cons.mp ht with rfl | ht2
      · exact hp
      · exact hpre t ht2

/-- **C10.** Bulk LRC matching: each uploaded file is matched by
`tracks.find(...)` — the FIRST track in list order whose stem matches the
file stem exactly, OR whose stem contains the file's `[ti:]` tag (length
> 3), OR whose stem starts with the file's `[ar:]` tag (length > 3); the
three criteria are OR-ed per track, not prioritized across tracks.  A file
matching no track yields no update, and the reported count is the number of
matched files. -/
theorem c10_first_track_wins (trackNames : List String) (fileName content : String)
    (files : List (String × String)) :
    (matchLrcFile trackNames fileName content =
      trackNames.find? (bulkMatches (stemOf fileName) (lrcTag 't' 'i' content)
        (lrcTag 'a' 'r' content))) ∧
    (matchLrcFile trackNames fileName content = none ↔
      ∀ t ∈ trackNames,
        bulkMatches (stemOf fileName) (lrcTag 't' 'i' content) (lrcTag 'a' 'r' content) t
          = false) ∧
    (∀ tr, matchLrcFile trackNames fileName content = some tr →
      bulkMatches (stemOf fileName) (lrcTag 't' 'i' content) (lrcTag 'a' 'r' content) tr
          = true ∧
      ∃ pre post, trackNames = pre ++ tr :: post ∧
        ∀ t ∈ pre,
          bulkMatches (stemOf fileName) (lrcTag 't' 'i' content) (lrcTag 'a' 'r' content) t
            = false) ∧
    (∀ lrcName lt la t, bulkMatches lrcName lt la t = true ↔
      (stemOf t = lrcName ∨
       (∃ ti, lt = some ti ∧ ti.length > 3 ∧ strContainsCh (stemOf t).data ti.data = true) ∨
       (∃ ar, la = some ar ∧ ar.length > 3 ∧ ar.data.isPrefixOf (stemOf t).data = true))) ∧
    ((handleBulkLrcUpload trackNames files).1 =
      files.filterMap (fun f => (matchLrcFile trackNames f.1 f.2).map fun tr => (tr, f.2)) ∧
     (handleBulkLrcUpload trackNames files).2 =
      (files.filter fun f => (matchLrcFile trackNames f.1 f.2).isSome).length) := by
  refine ⟨rfl, ?_, ?_, ?_, rfl, ?_⟩
  · unfold matchLrcFile
    rw [List.find?_eq_none]
    constructor
    · intro h t ht
      exact Bool.not_eq_true _ |>.mp (h t ht)
    · intro h t ht
      rw [h t ht]
      exact Bool.false_ne_true
  · intro tr htr
    exact find_some_split _ trackNames tr htr
  · intro lrcName lt la t
    unfold bulkMatches
    dsimp only
    cases lt with
    | none =>
      cases la with
      | none => simp
      | some ar => simp [Bool.or_eq_true, Bool.and_eq_true, decide_eq_true_iff]
    | some ti =>
      cases la with
      | none => simp [Bool.or_eq_true, Bool.and_eq_true, decide_eq_true_iff]
      | some ar =>
        simp [Bool.or_eq_true, Bool.and_eq_true, decide_eq_true_iff, or_assoc]
  · show (files.filterMap fun f =>
        (matchLrcFile trackNames f.1 f.2).map fun tr => (tr, f.2)).length = _
    induction files with
    | nil => rfl
    | cons f fs ih =>
      rw [List.filterMap_cons, List.filter_cons]
      cases hM : matchLrcFile trackNames f.1 f.2 with
      | none => simp [hM, ih]
      | some tr => simp [hM, ih]

/-- **C10 counterexample.** The uploaded file `song.lrc` has an exact stem
match with the track `song.mp3`, yet the matcher returns
`Artists Best.mp3`: that earlier track already satisfies the lower-priority
artist-tag criterion (`[ar:artists]` starts its stem), so exact stem
equality is NOT tried first across tracks as the claim states. -/
theorem c10_counterexample :
    stemOf "song.mp3" = stemOf "song.lrc" ∧
    "song.mp3" ∈ demoTrackNames ∧
    ("Artists Best.mp3" : String) ≠ "song.mp3" ∧
    matchLrcFile demoTrackNames "song.lrc" demoLrcContent = some "Artists Best.mp3" := by
  refine ⟨rfl, by decide, by decide, ?_⟩
  rfl

end LRCGen
